import Mathlib

/-!
GNUstep non-fragile ivar pass (`opts/IvarPass.cpp`).

A shallow embedding of `GNUNonfragileIvarPass`: the class-metadata reader
(`getSuperName`), the size calculator (`sizeOfClass`), the offset resolver
(`hardCodedOffset`) and the function rewrite (`runOnFunction`).

Conventions of the embedding.

* Strings (`std::string`, `StringRef`) are lists of characters.
* `size_t` values are naturals below `2 ^ w`, where `w` is the width of
  `size_t` on the machine that runs the pass; results of `size_t`
  arithmetic are reduced modulo `2 ^ w`.
* `getSExtValue()` yields an `Int`.
* A computation that does not produce a value in C++ (a failed `cast<>`
  or operand access, `removeFromParent` on an instruction that has no
  parent, the verifier aborting the process, unbounded recursion) is
  `none`.
* The recursion of `sizeOfClass` is bounded by a `fuel` argument that
  counts nested calls.
* Class metadata is well shaped: the operands that `hardCodedOffset` and
  `sizeOfClass` `cast<>` have the expected kinds once the initializer is a
  class structure. The types of globals are not modelled, and
  `replaceAllUsesWith` is applied to values of equal type.
-/

namespace IvarPass

/-- Character strings. -/
abbrev Str := List Char

/-! ## Class metadata as stored in the module -/

/-- One element of the ivar array: operand 0 is the ivar name (through a
global holding the string), operand 2 the offset. -/
structure Ivar where
  name : Str
  offset : Int
deriving DecidableEq, Repr

/-- The ivar list structure (operand 6 of the class structure, through a
global): operand 0 is the count, operand 1 the array of ivars. -/
structure IvarStruct where
  count : Int
  ivars : List Ivar
deriving DecidableEq, Repr

/-- The class structure: operand 1 is the superclass reference (a null
pointer, or a reference to a global holding the superclass name), operand 5
the instance size, operand 6 the ivar list. -/
structure ClsStruct where
  super : Option Str
  size : Int
  ivarList : IvarStruct
deriving DecidableEq, Repr

/-- Initializer of a global variable: a class structure, or anything
else. -/
inductive Constant where
  | classStruct (c : ClsStruct)
  | data
deriving DecidableEq, Repr

/-- A global variable of the module. -/
structure GlobalVariable where
  name : Str
  hasLocalLinkage : Bool
  initializer : Constant
deriving DecidableEq, Repr

/-- Values of `Module::getPointerSize()`. -/
inductive PointerSize where
  | AnyPointerSize
  | Pointer32
  | Pointer64
deriving DecidableEq, Repr

/-- An LLVM module, as far as the pass reads it. -/
structure Module where
  pointerSize : PointerSize
  globals : List GlobalVariable
deriving DecidableEq, Repr

/-- `Module::getGlobalVariable(Name, AllowInternal)`: the global of that
name; one with local linkage is returned only when `AllowInternal` is
set. -/
def Module.getGlobalVariable (M : Module) (Name : Str) (AllowInternal : Bool) :
    Option GlobalVariable :=
  match M.globals.find? (fun g => g.name == Name) with
  | some g => if AllowInternal || !g.hasLocalLinkage then some g else none
  | none => none

/-- State of the pass object after `doInitialization`. -/
structure GNUNonfragileIvarPass where
  M : Module
  PointerSize : Nat
deriving DecidableEq, Repr

/-- `doInitialization`: remember the module, and 4 or 8 as pointer size. -/
def doInitialization (Mod : Module) : GNUNonfragileIvarPass :=
  { M := Mod
    PointerSize := if Mod.pointerSize = PointerSize.Pointer32 then 4 else 8 }

/-- `s.compare(0, len, t) == 0`: the first `len` characters of `s` (all of
`s` when it is shorter) are exactly `t`. -/
def compare0 (s : Str) (len : Nat) (t : Str) : Bool :=
  s.take len == t

/-- Conversion of a signed value to `size_t`. -/
def toSizeT (w : Nat) (x : Int) : Nat :=
  (x % (2 ^ w : Int)).toNat

/-- Conversion of a 64-bit signed value to `int`. -/
def toInt32 (x : Int) : Int :=
  (x + 2 ^ 31) % 2 ^ 32 - 2 ^ 31

/-- The prefix of the name of a class metadata global. -/
def classPrefix : Str := "_OBJC_CLASS_".toList

/-- `getSuperName`: the empty string for a null superclass reference,
otherwise the string held by the referenced global. -/
def getSuperName (ClsStruct : ClsStruct) : Str :=
  match ClsStruct.super with
  | none => []
  | some name => name

/-- The test of `sizeOfClass` for the root classes that are assumed to have
the one ivar `isa`. -/
def isRootName (className : Str) : Bool :=
  compare0 className 8 "NSObject".toList || compare0 className 6 "Object".toList

/-- `sizeOfClass`. `none` when `fuel` nested calls do not suffice or a
`cast<>` fails. -/
def sizeOfClass (w : Nat) (P : GNUNonfragileIvarPass) : Nat → Str → Option Nat
  | 0, _ => none
  | fuel + 1, className =>
    if className = [] then some 0
    else if isRootName className then some P.PointerSize
    else
      match P.M.getGlobalVariable (classPrefix ++ className) false with
      | none => some 0
      | some Cls =>
        match Cls.initializer with
        | Constant.classStruct ClsStruct =>
          match sizeOfClass w P fuel (getSuperName ClsStruct) with
          | some superSize => some (toSizeT w ((superSize : Int) - ClsStruct.size))
          | none => none
        | Constant.data => none

/-- The loop of `hardCodedOffset` over the ivar array, from index `i` with
`n` iterations left. `none` when operand `i` does not exist. -/
def ivarLoop (w : Nat) (superSize : Nat) (ivarName : Str) (ivars : List Ivar) :
    Nat → Nat → Option Nat
  | _, 0 => some 0
  | i, n + 1 =>
    match ivars[i]? with
    | none => none
    | some ivar =>
      if compare0 ivar.name ivarName.length ivarName then
        some (toSizeT w ((superSize : Int) + ivar.offset))
      else ivarLoop w superSize ivarName ivars (i + 1) n

/-- `hardCodedOffset`. The result `some 0` is the "no offset" answer. -/
def hardCodedOffset (w : Nat) (P : GNUNonfragileIvarPass) (fuel : Nat)
    (className ivarName : Str) : Option Nat :=
  match P.M.getGlobalVariable (classPrefix ++ className) true with
  | none => some 0
  | some Cls =>
    match Cls.initializer with
    | Constant.classStruct ClsStruct =>
      match sizeOfClass w P fuel (getSuperName ClsStruct) with
      | none => none
      | some superSize =>
        if superSize = 0 then some 0
        else
          ivarLoop w superSize ivarName ClsStruct.ivarList.ivars 0
            (toInt32 ClsStruct.ivarList.count).toNat
    | Constant.data => none

/-! ## Functions, basic blocks and instructions -/

/-- Types of values: integer types of a bit width, and all others. -/
inductive Ty where
  | integer (bits : Nat)
  | other
deriving DecidableEq, Repr

/-- Values used as operands. An instruction is referred to by its
identity, a global variable by its name. -/
inductive Value where
  | inst (id : Nat)
  | global (name : Str)
  | constInt (bits : Nat) (v : Nat)
  | other (n : Nat)
deriving DecidableEq, Repr

/-- Instructions: `LoadInst` with its one operand, and all others. -/
inductive Instruction where
  | load (id : Nat) (ty : Ty) (ptr : Value)
  | other (id : Nat) (ty : Ty) (operands : List Value)
deriving DecidableEq, Repr

/-- Identity of an instruction. -/
def Instruction.id : Instruction → Nat
  | Instruction.load id _ _ => id
  | Instruction.other id _ _ => id

/-- The operands of an instruction. -/
def Instruction.operands : Instruction → List Value
  | Instruction.load _ _ ptr => [ptr]
  | Instruction.other _ _ ops => ops

/-- Apply `f` to every operand. -/
def Instruction.mapOperands (f : Value → Value) : Instruction → Instruction
  | Instruction.load id ty ptr => Instruction.load id ty (f ptr)
  | Instruction.other id ty ops => Instruction.other id ty (ops.map f)

/-- A basic block is its instruction list. -/
abbrev BasicBlock := List Instruction

/-- A function: its basic blocks, and the instructions that were taken out
of their block (`removeFromParent` unlinks an instruction without
destroying it, so its users still point to it). -/
structure Function where
  blocks : List BasicBlock
  unlinked : List Instruction
deriving DecidableEq, Repr

/-- The instructions linked into the blocks of the function. -/
def Function.linked (F : Function) : List Instruction :=
  F.blocks.flatten

/-- Every instruction object reachable from the function. -/
def Function.insts (F : Function) : List Instruction :=
  F.linked ++ F.unlinked

/-- The instruction object of an identity. -/
def Function.getInst (F : Function) (id : Nat) : Option Instruction :=
  F.insts.find? (fun i => i.id == id)

/-- `ConstantInt::get(Ty, V)`: asserts an integer type, truncates to its
width. -/
def ConstantInt.get (ty : Ty) (V : Nat) : Option Value :=
  match ty with
  | Ty.integer bits => some (Value.constInt bits (V % 2 ^ bits))
  | Ty.other => none

/-- `StringRef::split(c)`: the parts before and after the first `c`; the
whole string and the empty string when there is no `c`. -/
def split (s : Str) (c : Char) : Str × Str :=
  match s.span (fun x => x != c) with
  | (a, []) => (a, [])
  | (a, _ :: b) => (a, b)

/-- The prefix of the name of an indirect offset variable. -/
def offsetPrefix : Str := "__objc_ivar_offset_".toList

/-- The prefix of the name of a direct offset variable. -/
def valuePrefix : Str := "__objc_ivar_offset_value_".toList

/-- The value of `strlen("__objc_ivar_offset_")`. -/
def prefixLength : Nat := 19

/-- The three nested `dyn_cast`s of `runOnFunction` on instruction `b`:
`b` is a load (`indirectload`), its operand is a load (`load`), whose
operand is a global variable. Yields the identities of `indirectload` and
`load`, the type of `indirectload` and the name of the global. -/
def matchLoads (F : Function) (b : Instruction) : Option (Nat × Nat × Ty × Str) :=
  match b with
  | Instruction.load indirectload ty (Value.inst l) =>
    match F.getInst l with
    | some (Instruction.load load _ (Value.global variableName)) =>
      some (indirectload, load, ty, variableName)
    | _ => none
  | _ => none

/-- A pending replacement: the instruction, and the value to put in its
place (`none` for a null pointer). -/
abbrev Replacement := Nat × Option Value

/-- The local variables `replacements` and `modified` of
`runOnFunction`. -/
structure ScanState where
  replacements : List Replacement
  modified : Bool
deriving DecidableEq, Repr

/-- The inner loop of `runOnFunction`, over the instructions of one basic
block. `break` ends the loop with the state reached so far. -/
def scanBlock (w : Nat) (P : GNUNonfragileIvarPass) (fuel : Nat) (F : Function) :
    List Instruction → ScanState → Option ScanState
  | [], st => some st
  | b :: rest, st =>
    match matchLoads F b with
    | none => scanBlock w P fuel F rest st
    | some (indirectload, load, ty, variableName) =>
      if !(offsetPrefix.isPrefixOf variableName) then some st
      else
        let suffix := variableName.drop prefixLength
        let parts := split suffix '.'
        match hardCodedOffset w P fuel parts.1 parts.2 with
        | none => none
        | some offset =>
          if offset ≠ 0 then
            match ConstantInt.get ty offset with
            | none => none
            | some c =>
              scanBlock w P fuel F rest
                { replacements := st.replacements ++ [(load, none), (indirectload, some c)]
                  modified := true }
          else
            match P.M.getGlobalVariable (valuePrefix ++ suffix) false with
            | some offsetVar =>
              scanBlock w P fuel F rest
                { replacements := st.replacements ++ [(load, some (Value.global offsetVar.name))]
                  modified := true }
            | none => scanBlock w P fuel F rest st

/-- The outer loop of `runOnFunction`, over the basic blocks. -/
def scanBlocks (w : Nat) (P : GNUNonfragileIvarPass) (fuel : Nat) (F : Function) :
    List BasicBlock → ScanState → Option ScanState
  | [], st => some st
  | B :: rest, st =>
    match scanBlock w P fuel F B st with
    | none => none
    | some st1 => scanBlocks w P fuel F rest st1

/-- Replace operand `u` by `v` when it is instruction `id`. -/
def replaceUse (id : Nat) (v : Value) (u : Value) : Value :=
  if u = Value.inst id then v else u

/-- `I->replaceAllUsesWith(V)`: every operand that is `I` becomes `V`, in
every instruction object. -/
def Function.replaceAllUsesWith (F : Function) (id : Nat) (v : Value) : Function :=
  { blocks := F.blocks.map (fun B => B.map (Instruction.mapOperands (replaceUse id v)))
    unlinked := F.unlinked.map (Instruction.mapOperands (replaceUse id v)) }

/-- `I->removeFromParent()`: unlink `I` from its basic block; `none` when
`I` is in no basic block. -/
def Function.removeFromParent (F : Function) (id : Nat) : Option Function :=
  if F.linked.any (fun i => i.id == id) then
    some
      { blocks := F.blocks.map (fun B => B.filter (fun i => i.id != id))
        unlinked := F.unlinked ++ F.linked.filter (fun i => i.id == id) }
  else none

/-- The second loop of `runOnFunction`, over the pending replacements. -/
def commit : List Replacement → Function → Option Function
  | [], F => some F
  | (first, second) :: rest, F =>
    let F1 :=
      match second with
      | some v => F.replaceAllUsesWith first v
      | none => F
    match F1.removeFromParent first with
    | none => none
    | some F2 => commit rest F2

/-- `runOnFunction`: the value returned and the function as left behind.
`verifyFunction` is the structural verifier of LLVM, which ends the
process when it rejects the function. -/
def runOnFunction (w : Nat) (verifyFunction : Function → Bool) (P : GNUNonfragileIvarPass)
    (fuel : Nat) (F : Function) : Option (Bool × Function) :=
  match scanBlocks w P fuel F F.blocks { replacements := [], modified := false } with
  | none => none
  | some st =>
    match commit st.replacements F with
    | none => none
    | some F1 => if verifyFunction F1 then some (st.modified, F1) else none

/-! ## Example module -/

/-- Metadata global of a class. -/
def classGlobal (name : String) (super : Option String) (size : Int)
    (ivars : List (String × Int)) : GlobalVariable :=
  { name := classPrefix ++ name.toList
    hasLocalLinkage := false
    initializer := Constant.classStruct
      { super := super.map String.toList
        size := size
        ivarList :=
          { count := ivars.length
            ivars := ivars.map (fun p => { name := p.1.toList, offset := p.2 }) } } }

/-- Global without class structure, of external linkage. -/
def dataGlobal (name : String) : GlobalVariable :=
  { name := name.toList, hasLocalLinkage := false, initializer := Constant.data }

/-- Example module (pointer size 8): `Base` (no superclass, 8 bytes),
`Mid : Base` (16 more bytes, field `count` at 0), `Leaf : Mid` (field
`flag` at 16), `Root` (no superclass, fields `isa` at 0 and `refs` at 8),
`Widget : NSObject` (field `counter` at 8), `Orphan : MissingAncestor` and
`Deep : Orphan`, where `MissingAncestor` has no metadata; the
offset variable of `Mid.count`; for the ivar `v` of a class `Ext` without metadata
the offset variable and the direct offset variable; and two more
globals. -/
def exampleModule : Module :=
  { pointerSize := PointerSize.Pointer64
    globals :=
      [ classGlobal "Base" none (-8) [("isa", 0)],
        classGlobal "Mid" (some "Base") (-16) [("count", 0), ("total", 8)],
        classGlobal "Leaf" (some "Mid") (-8) [("flag", 16)],
        classGlobal "Root" none (-16) [("isa", 0), ("refs", 8)],
        classGlobal "Widget" (some "NSObject") (-8) [("counter", 8)],
        classGlobal "Orphan" (some "MissingAncestor") (-16) [("x", 0)],
        classGlobal "Deep" (some "Orphan") (-8) [("y", 0)],
        dataGlobal "__objc_ivar_offset_Mid.count",
        dataGlobal "__objc_ivar_offset_Ext.v",
        dataGlobal "__objc_ivar_offset_value_Ext.v",
        dataGlobal "__objc_ivar_offset_value_value_Ext.v",
        dataGlobal "other_global" ] }

/-- The pass initialized on the example module. -/
def examplePass : GNUNonfragileIvarPass :=
  doInitialization exampleModule

/-- The instruction `%id = load @name`, of pointer type. -/
def loadGlobal (id : Nat) (name : String) : Instruction :=
  Instruction.load id Ty.other (Value.global name.toList)

/-- The instruction `%id = load %ptr`, of type `i32`. -/
def loadInst (id : Nat) (ptr : Nat) : Instruction :=
  Instruction.load id (Ty.integer 32) (Value.inst ptr)

/-- An instruction that uses `%val`. -/
def useInst (id : Nat) (val : Nat) : Instruction :=
  Instruction.other id Ty.other [Value.inst val, Value.other 0]

/-- A verifier that accepts every function. -/
def acceptAll (_ : Function) : Bool := true

/-- One block that reads the offset of `Mid.count` through its offset
variable. -/
def resolvedFunction : Function :=
  { blocks := [[loadGlobal 1 "__objc_ivar_offset_Mid.count", loadInst 2 1, useInst 3 2]]
    unlinked := [] }

/-- One block that reads the offset of `Ext.v` through its offset
variable. -/
def fallbackFunction : Function :=
  { blocks := [[loadGlobal 1 "__objc_ivar_offset_Ext.v", loadInst 2 1, useInst 3 2]]
    unlinked := [] }

/-- One block with a double load of `other_global` before the read of the
offset of `Mid.count`, and a second block with another read of it. -/
def breakFunction : Function :=
  { blocks :=
      [ [ loadGlobal 1 "other_global", loadInst 2 1,
          loadGlobal 3 "__objc_ivar_offset_Mid.count", loadInst 4 3, useInst 5 4 ],
        [ loadGlobal 6 "__objc_ivar_offset_Mid.count", loadInst 7 6, useInst 8 7 ] ]
    unlinked := [] }

/-- The function `resolvedFunction` after the pass. -/
def resolvedFunctionAfter : Function :=
  { blocks := [[Instruction.other 3 Ty.other [Value.constInt 32 8, Value.other 0]]]
    unlinked := [loadGlobal 1 "__objc_ivar_offset_Mid.count", loadInst 2 1] }

/-- The function `fallbackFunction` after the pass. -/
def fallbackFunctionAfter : Function :=
  { blocks :=
      [[Instruction.load 2 (Ty.integer 32)
          (Value.global "__objc_ivar_offset_value_Ext.v".toList), useInst 3 2]]
    unlinked := [loadGlobal 1 "__objc_ivar_offset_Ext.v"] }

/-- The function `breakFunction` after the pass. -/
def breakFunctionAfter : Function :=
  { blocks :=
      [ [ loadGlobal 1 "other_global", loadInst 2 1,
          loadGlobal 3 "__objc_ivar_offset_Mid.count", loadInst 4 3, useInst 5 4 ],
        [ Instruction.other 8 Ty.other [Value.constInt 32 8, Value.other 0] ] ]
    unlinked := [loadGlobal 6 "__objc_ivar_offset_Mid.count", loadInst 7 6] }

/-- A function without a candidate site: a single load of an offset
variable, and a double load of another global. -/
def plainFunction : Function :=
  { blocks :=
      [ [ loadGlobal 1 "__objc_ivar_offset_Mid.count", useInst 2 1 ],
        [ loadGlobal 3 "other_global", loadInst 4 3, useInst 5 4 ] ]
    unlinked := [] }

/-- One block in which the value read through the offset variable of
`Mid.count` is itself the address of a load. -/
def resolvedTripleFunction : Function :=
  { blocks :=
      [[loadGlobal 1 "__objc_ivar_offset_Mid.count", loadInst 2 1, loadInst 3 2, useInst 4 3]]
    unlinked := [] }

/-- The function `resolvedTripleFunction` after the pass. -/
def resolvedTripleFunctionAfter : Function :=
  { blocks := [[Instruction.load 3 (Ty.integer 32) (Value.constInt 32 8), useInst 4 3]]
    unlinked := [loadGlobal 1 "__objc_ivar_offset_Mid.count", loadInst 2 1] }

/-- One block in which the value read through the offset variable of
`Ext.v` is itself the address of a load. -/
def tripleFunction : Function :=
  { blocks :=
      [[ loadGlobal 1 "__objc_ivar_offset_Ext.v",
         Instruction.load 2 Ty.other (Value.inst 1), loadInst 3 2, useInst 4 3 ]]
    unlinked := [] }

/-- The function `tripleFunction` after one run of the pass. -/
def tripleFunctionAfter : Function :=
  { blocks :=
      [[ Instruction.load 2 Ty.other (Value.global "__objc_ivar_offset_value_Ext.v".toList),
         loadInst 3 2, useInst 4 3 ]]
    unlinked := [loadGlobal 1 "__objc_ivar_offset_Ext.v"] }

/-- A module (pointer size 8) without class metadata, with the
offset variable and the direct offset variable of `Ext.v` and no other
global. -/
def fallbackOnlyModule : Module :=
  { pointerSize := PointerSize.Pointer64
    globals :=
      [ dataGlobal "__objc_ivar_offset_Ext.v",
        dataGlobal "__objc_ivar_offset_value_Ext.v" ] }

/-- The function `tripleFunction` after two runs of the pass. -/
def tripleFunctionAfter2 : Function :=
  { blocks :=
      [[ Instruction.load 3 (Ty.integer 32)
           (Value.global "__objc_ivar_offset_value_value_Ext.v".toList),
         useInst 4 3 ]]
    unlinked :=
      [ loadGlobal 1 "__objc_ivar_offset_Ext.v",
        Instruction.load 2 Ty.other (Value.global "__objc_ivar_offset_value_Ext.v".toList) ] }

/-- A second module (pointer size 8): `Base` (no superclass, 8 bytes),
`ObjectStore : Base` (24 more bytes, field `slots` at 0) and
`Item : ObjectStore` (field `tag` at 0). -/
def storeModule : Module :=
  { pointerSize := PointerSize.Pointer64
    globals :=
      [ classGlobal "Base" none (-8) [("isa", 0)],
        classGlobal "ObjectStore" (some "Base") (-24) [("slots", 0)],
        classGlobal "Item" (some "ObjectStore") (-8) [("tag", 0)] ] }

/-- One block with a double load of an offset variable whose name has no
`.` after the prefix. -/
def malformedFunction : Function :=
  { blocks := [[loadGlobal 1 "__objc_ivar_offset_Mid", loadInst 2 1, useInst 3 2]]
    unlinked := [] }

/-- The function `malformedFunction` after the pass. -/
def malformedFunctionAfter : Function :=
  { blocks := [[Instruction.other 3 Ty.other [Value.constInt 32 8, Value.other 0]]]
    unlinked := [loadGlobal 1 "__objc_ivar_offset_Mid", loadInst 2 1] }

/-- One block in which the inner load of the site of `Mid.count` has a
second user. -/
def extraUserFunction : Function :=
  { blocks :=
      [[loadGlobal 1 "__objc_ivar_offset_Mid.count", loadInst 2 1, useInst 3 2, useInst 4 1]]
    unlinked := [] }

/-- The function `extraUserFunction` after the commit loop. -/
def extraUserFunctionAfter : Function :=
  { blocks :=
      [[Instruction.other 3 Ty.other [Value.constInt 32 8, Value.other 0], useInst 4 1]]
    unlinked := [loadGlobal 1 "__objc_ivar_offset_Mid.count", loadInst 2 1] }

/-- One block in which two outer loads share the inner load of the
offset variable of `Mid.count`. -/
def sharedInnerFunction : Function :=
  { blocks :=
      [[ loadGlobal 1 "__objc_ivar_offset_Mid.count", loadInst 2 1, loadInst 3 1,
         useInst 4 2, useInst 5 3 ]]
    unlinked := [] }

/-- One block that reads the offset of `Orphan.x` through its offset
variable. -/
def orphanFunction : Function :=
  { blocks := [[loadGlobal 1 "__objc_ivar_offset_Orphan.x", loadInst 2 1, useInst 3 2]]
    unlinked := [] }

/-- One block with a double load of `other_global` before the read of the
offset of `Mid.count`. -/
def breakResolvedFunction : Function :=
  { blocks :=
      [[ loadGlobal 1 "other_global", loadInst 2 1,
         loadGlobal 3 "__objc_ivar_offset_Mid.count", loadInst 4 3, useInst 5 4 ]]
    unlinked := [] }

/-- One block with a double load of `other_global` before the read of the
offset of `Ext.v`. -/
def breakFallbackFunction : Function :=
  { blocks :=
      [[ loadGlobal 1 "other_global", loadInst 2 1,
         loadGlobal 3 "__objc_ivar_offset_Ext.v", loadInst 4 3, useInst 5 4 ]]
    unlinked := [] }

/-- A module (pointer size 8) with `MyCtl : NSObjectController` (field `x`
at 16), where `NSObjectController` has no metadata, and the offset variable
of `MyCtl.x`. -/
def controllerModule : Module :=
  { pointerSize := PointerSize.Pointer64
    globals :=
      [ classGlobal "MyCtl" (some "NSObjectController") (-24) [("x", 16)],
        dataGlobal "__objc_ivar_offset_MyCtl.x" ] }

/-- One block that reads the offset of `MyCtl.x` through its offset
variable. -/
def controllerFunction : Function :=
  { blocks := [[loadGlobal 1 "__objc_ivar_offset_MyCtl.x", loadInst 2 1, useInst 3 2]]
    unlinked := [] }

/-- The function `controllerFunction` after the pass. -/
def controllerFunctionAfter : Function :=
  { blocks := [[Instruction.other 3 Ty.other [Value.constInt 32 24, Value.other 0]]]
    unlinked := [loadGlobal 1 "__objc_ivar_offset_MyCtl.x", loadInst 2 1] }

/-- A module (pointer size 8) with `Pair : NSObject`, whose field list is
`value2` at 16, then `value` at 8. -/
def pairModule : Module :=
  { pointerSize := PointerSize.Pointer64
    globals := [ classGlobal "Pair" (some "NSObject") (-24) [("value2", 16), ("value", 8)] ] }

/-! ## Specification-side notions -/

/-- Follows the spec (SizeCalculator): the cumulative size of a class
name. The empty name (no superclass) has size 0; each of the two
recognized root names, `NSObject` and `Object`, has size `PointerSize`;
any other name whose class descriptor is present in the module has the
cumulative size of its superclass minus its stored size delta. A class
descriptor is present when the module has a global of the metadata name,
whatever its linkage. -/
inductive SpecCumulativeSize (w : Nat) (P : GNUNonfragileIvarPass) : Str → Nat → Prop where
  | noSuper : SpecCumulativeSize w P [] 0
  | root (name : Str) (h : name = "NSObject".toList ∨ name = "Object".toList) :
      SpecCumulativeSize w P name P.PointerSize
  | step (name : Str) (Cls : GlobalVariable) (c : ClsStruct) (k : Nat)
      (hne : name ≠ [])
      (hroot : name ≠ "NSObject".toList ∧ name ≠ "Object".toList)
      (hCls : P.M.getGlobalVariable (classPrefix ++ name) true = some Cls)
      (hc : Cls.initializer = Constant.classStruct c)
      (hsuper : SpecCumulativeSize w P (getSuperName c) k) :
      SpecCumulativeSize w P name (toSizeT w ((k : Int) - c.size))

/-- Follows the spec: `a` is on the ancestor chain of `name`, that is, `a`
is `name` itself or a name that the cumulative size of `name` is computed
through. The chain ends at the empty name and at the two recognized root
names. -/
inductive SpecChainMember (P : GNUNonfragileIvarPass) : Str → Str → Prop where
  | self (name : Str) : SpecChainMember P name name
  | up (name : Str) (Cls : GlobalVariable) (c : ClsStruct) (a : Str)
      (hne : name ≠ [])
      (hroot : name ≠ "NSObject".toList ∧ name ≠ "Object".toList)
      (hCls : P.M.getGlobalVariable (classPrefix ++ name) true = some Cls)
      (hc : Cls.initializer = Constant.classStruct c)
      (hsuper : SpecChainMember P (getSuperName c) a) :
      SpecChainMember P name a

/-- The class `a`, on an ancestor chain, is one that `sizeOfClass` sizes
from its metadata: its name does not begin with a root class name, and
its metadata global does not have local linkage. -/
def PlainClass (P : GNUNonfragileIvarPass) (a : Str) : Prop :=
  isRootName a = false ∧
  ∀ g, P.M.getGlobalVariable (classPrefix ++ a) true = some g → g.hasLocalLinkage = false

/-- A third module (pointer size 8): `Base` (no superclass, 8 bytes),
`Mid : Base` (16 more bytes) with metadata of local linkage, and
`Leaf : Mid` (field `flag` at 16). -/
def localModule : Module :=
  { pointerSize := PointerSize.Pointer64
    globals :=
      [ classGlobal "Base" none (-8) [("isa", 0)],
        { name := classPrefix ++ "Mid".toList
          hasLocalLinkage := true
          initializer := Constant.classStruct
            { super := some "Base".toList, size := -16,
              ivarList := { count := 1, ivars := [⟨"count".toList, 0⟩] } } },
        classGlobal "Leaf" (some "Mid") (-8) [("flag", 16)] ] }

/-! ## The scan of `runOnFunction` as a list of replacements

A restatement of the first loop of `runOnFunction` that returns the
entries pushed to `replacements`; `scanBlocks_eq` proves it equal to the
loop. -/

/-- What the loop body pushes to `replacements` at a matched site whose
global has the offset prefix. -/
def siteReplacements (w : Nat) (P : GNUNonfragileIvarPass) (fuel : Nat)
    (indirectload load : Nat) (ty : Ty) (variableName : Str) : Option (List Replacement) :=
  match hardCodedOffset w P fuel (split (variableName.drop prefixLength) '.').1
      (split (variableName.drop prefixLength) '.').2 with
  | none => none
  | some offset =>
    if offset ≠ 0 then
      match ConstantInt.get ty offset with
      | none => none
      | some c => some [(load, none), (indirectload, some c)]
    else
      match P.M.getGlobalVariable (valuePrefix ++ variableName.drop prefixLength) false with
      | some offsetVar => some [(load, some (Value.global offsetVar.name))]
      | none => some []

/-- The entries pushed while scanning the instructions of one block. -/
def blockReplacements (w : Nat) (P : GNUNonfragileIvarPass) (fuel : Nat) (F : Function) :
    List Instruction → Option (List Replacement)
  | [] => some []
  | b :: rest =>
    match matchLoads F b with
    | none => blockReplacements w P fuel F rest
    | some (indirectload, load, ty, variableName) =>
      if !(offsetPrefix.isPrefixOf variableName) then some []
      else
        match siteReplacements w P fuel indirectload load ty variableName with
        | none => none
        | some rs =>
          match blockReplacements w P fuel F rest with
          | none => none
          | some R => some (rs ++ R)

/-- The entries pushed while scanning a list of blocks. -/
def functionReplacements (w : Nat) (P : GNUNonfragileIvarPass) (fuel : Nat) (F : Function) :
    List BasicBlock → Option (List Replacement)
  | [] => some []
  | B :: rest =>
    match blockReplacements w P fuel F B with
    | none => none
    | some R =>
      match functionReplacements w P fuel F rest with
      | none => none
      | some R1 => some (R ++ R1)

/-- The state after pushing the entries `R`. -/
def ScanState.push (st : ScanState) (R : List Replacement) : ScanState :=
  { replacements := st.replacements ++ R
    modified := st.modified || !R.isEmpty }

/-- The substitution on operands that the replacements `reps` perform, one
after the other. -/
def substOf : List Replacement → Value → Value
  | [], u => u
  | (x, some v) :: rest, u => substOf rest (replaceUse x v u)
  | (_, none) :: rest, u => substOf rest u

/-- The blocks after `reps` were committed: the instructions named in
`reps` are gone, the operands of the others went through `substOf reps`. -/
def committedBlock (reps : List Replacement) (B : BasicBlock) : BasicBlock :=
  (B.filter (fun i => !(reps.map Prod.fst).contains i.id)).map
    (Instruction.mapOperands (substOf reps))

/-- The values put in place of instructions by the scan are never
instructions. -/
def ClosedReplacements (reps : List Replacement) : Prop :=
  ∀ x v, (x, some v) ∈ reps → ∀ y, v ≠ Value.inst y

/-- The substitution of one replacement. -/
def stepUse (x : Nat) (v : Option Value) (u : Value) : Value :=
  match v with
  | some val => replaceUse x val u
  | none => u

/-- Instruction `y` makes the inner loop of `runOnFunction` `break`: it
is a load of a load of a global whose name lacks the offset prefix. -/
def breaksScan (F : Function) (y : Instruction) : Bool :=
  match matchLoads F y with
  | some (_, _, _, variableName) => !(offsetPrefix.isPrefixOf variableName)
  | none => false

/-- Instruction `b` has the shape that `runOnFunction` looks for: a load
of a load of a global whose name has the offset prefix. -/
def isCandidate (F : Function) (b : Instruction) : Bool :=
  match matchLoads F b with
  | some (_, _, _, variableName) => offsetPrefix.isPrefixOf variableName
  | none => false

/-- The class name and ivar name that `runOnFunction` decodes from the
name of an offset variable. -/
def decodeName (variableName : Str) : Str × Str :=
  split (variableName.drop prefixLength) '.'

/-- No two instruction objects of the function have the same identity. -/
def Function.WF (F : Function) : Prop :=
  (F.insts.map Instruction.id).Nodup

instance (F : Function) : Decidable F.WF :=
  inferInstanceAs (Decidable (F.insts.map Instruction.id).Nodup)

/-- Instruction `b` of the function `F` does not become a site that a
further run rewrites. When `b` is a load whose address is a load `l` that
reads through another instruction in `F` and reads a global
`variableName` in `F1`, the function left by the first run (so that `l` is
the outer load of a site that fell back to the direct offset global
`variableName`), and the name of this global has the offset prefix, then
the class and field decoded from that name have no hard-coded offset
(`hardCodedOffset` answers 0) and no direct offset global, found as on
line 119. -/
def quietAfterFallback (w : Nat) (P : GNUNonfragileIvarPass) (fuel : Nat)
    (F F1 : Function) (b : Instruction) : Bool :=
  match b with
  | Instruction.load _ _ (Value.inst l) =>
    match F.getInst l with
    | some (Instruction.load _ _ (Value.inst _)) =>
      match F1.getInst l with
      | some (Instruction.load _ _ (Value.global variableName)) =>
        !(offsetPrefix.isPrefixOf variableName) ||
          (decide (hardCodedOffset w P fuel (decodeName variableName).1
              (decodeName variableName).2 = some 0) &&
            (P.M.getGlobalVariable (valuePrefix ++ variableName.drop prefixLength)
              false).isNone)
      | _ => true
    | _ => true
  | _ => true

/-- The initializer with the ivar list of a class structure changed by
`f`. -/
def Constant.mapIvarList (f : IvarStruct → IvarStruct) : Constant → Constant
  | Constant.classStruct c => Constant.classStruct { c with ivarList := f c.ivarList }
  | Constant.data => Constant.data

/-- The module with the ivar list of every class structure changed by
`f`. -/
def Module.mapIvarLists (f : IvarStruct → IvarStruct) (M : Module) : Module :=
  { pointerSize := M.pointerSize
    globals := M.globals.map (fun g =>
      { name := g.name
        hasLocalLinkage := g.hasLocalLinkage
        initializer := g.initializer.mapIvarList f }) }

/-! ## The superclass relation -/

/-- The superclass name recorded in the metadata of a class, as
`sizeOfClass` reads it. -/
def superclassOf (M : Module) (className : Str) : Option Str :=
  match M.getGlobalVariable (classPrefix ++ className) false with
  | some Cls =>
    match Cls.initializer with
    | Constant.classStruct c => some (getSuperName c)
    | Constant.data => none
  | none => none

/-- The name reached from `className` by `n` steps of the superclass
relation. -/
def ancestorAt (M : Module) : Nat → Str → Option Str
  | 0, className => some className
  | n + 1, className =>
    match superclassOf M className with
    | some s => ancestorAt M n s
    | none => none

/-- The superclass relation recorded in the class metadata is acyclic: no
name is reached from itself by one or more steps. -/
def Module.Acyclic (M : Module) : Prop :=
  ∀ (className : Str) (n : Nat), ancestorAt M (n + 1) className ≠ some className

/-- Every global named as class metadata holds a class structure. -/
def Module.WellShaped (M : Module) : Prop :=
  ∀ g ∈ M.globals, classPrefix.isPrefixOf g.name = true → g.initializer ≠ Constant.data

instance (M : Module) : Decidable M.WellShaped :=
  inferInstanceAs (Decidable (∀ g ∈ M.globals,
    classPrefix.isPrefixOf g.name = true → g.initializer ≠ Constant.data))

/-- The class name with which `sizeOfClass className` calls itself, when
it does. -/
def nextClass (P : GNUNonfragileIvarPass) (className : Str) : Option Str :=
  if className = [] then none
  else if isRootName className then none
  else superclassOf P.M className

/-- The class name of the `n`-th nested call of `sizeOfClass className`,
when the recursion gets that deep. -/
def nthCall (P : GNUNonfragileIvarPass) : Nat → Str → Option Str
  | 0, className => some className
  | n + 1, className =>
    match nextClass P className with
    | some s => nthCall P n s
    | none => none

/-- The class names of the first `n` calls of the recursion of
`sizeOfClass className`. -/
def callNames (P : GNUNonfragileIvarPass) : Nat → Str → List Str
  | 0, _ => []
  | n + 1, className =>
    className ::
      (match nextClass P className with
       | some s => callNames P n s
       | none => [])

/-- From every superclass name recorded in the module, fewer than `N`
steps of the superclass relation are possible. -/
def supersEndWithin (M : Module) (N : Nat) : Bool :=
  M.globals.all (fun g =>
    match g.initializer with
    | Constant.classStruct c => (ancestorAt M N (getSuperName c)).isNone
    | Constant.data => true)

/-! # Theorems -/

/-! ## Size calculator and offset resolver -/

theorem sizeOfClass_succ (w : Nat) (P : GNUNonfragileIvarPass) (fuel : Nat) :
    ∀ (className : Str) (k : Nat), sizeOfClass w P fuel className = some k →
      sizeOfClass w P (fuel + 1) className = some k := by
  induction fuel with
  | zero => intro className k h; simp [sizeOfClass] at h
  | succ n ih =>
    intro className k h
    rw [sizeOfClass] at h
    rw [sizeOfClass]
    by_cases h1 : className = []
    · simpa [h1] using h
    · by_cases h2 : isRootName className = true
      · simpa [h1, h2] using h
      · simp only [h1, h2, if_false] at h ⊢
        cases hg : P.M.getGlobalVariable (classPrefix ++ className) false with
        | none => simpa [hg] using h
        | some Cls =>
          simp only [hg] at h ⊢
          cases hi : Cls.initializer with
          | data => simp [hi] at h
          | classStruct c =>
            simp only [hi] at h ⊢
            cases hs : sizeOfClass w P n (getSuperName c) with
            | none => simp [hs] at h
            | some s =>
              rw [ih _ _ hs]
              simpa [hs] using h

theorem sizeOfClass_mono (w : Nat) (P : GNUNonfragileIvarPass) (fuel fuel1 : Nat)
    (className : Str) (k : Nat) (hle : fuel ≤ fuel1)
    (h : sizeOfClass w P fuel className = some k) :
    sizeOfClass w P fuel1 className = some k := by
  induction hle with
  | refl => exact h
  | step _ ih => exact sizeOfClass_succ w P _ _ _ ih

theorem isRootName_NSObject : isRootName "NSObject".toList = true := by decide

theorem isRootName_Object : isRootName "Object".toList = true := by decide

theorem getGlobalVariable_external (M : Module) (Name : Str) (g : GlobalVariable)
    (h : M.getGlobalVariable Name true = some g) (hl : g.hasLocalLinkage = false) :
    M.getGlobalVariable Name false = some g := by
  unfold Module.getGlobalVariable at h ⊢
  cases hf : M.globals.find? (fun g => g.name == Name) with
  | none => simp [hf] at h
  | some g0 =>
    simp only [hf, Bool.true_or, if_true, Option.some.injEq] at h
    subst h
    simp [hl]

/-- The code computes the cumulative size of the spec, given enough fuel,
when the classes on the chain other than the two root names are
plain. -/
theorem sizeOfClass_of_spec (w : Nat) (P : GNUNonfragileIvarPass) (name : Str) (k : Nat)
    (h : SpecCumulativeSize w P name k) :
    (∀ a, SpecChainMember P name a → a ≠ [] → a ≠ "NSObject".toList →
      a ≠ "Object".toList → PlainClass P a) →
    ∃ fuel0, ∀ fuel, fuel0 ≤ fuel → sizeOfClass w P fuel name = some k := by
  induction h with
  | noSuper =>
    intro _
    refine ⟨1, fun fuel hf => ?_⟩
    obtain ⟨n, rfl⟩ : ∃ n, fuel = n + 1 := ⟨fuel - 1, by omega⟩
    simp [sizeOfClass]
  | root name h =>
    intro _
    refine ⟨1, fun fuel hf => ?_⟩
    obtain ⟨n, rfl⟩ : ∃ n, fuel = n + 1 := ⟨fuel - 1, by omega⟩
    have hr : isRootName name = true := by
      rcases h with h | h
      · rw [h]; exact isRootName_NSObject
      · rw [h]; exact isRootName_Object
    have hne : name ≠ [] := by
      rcases h with h | h <;> rw [h] <;> decide
    rw [sizeOfClass]
    simp only [hne, hr, if_true, if_false]
  | step name Cls c k hne hroot hCls hc _ ih =>
    intro hplain
    obtain ⟨hnotroot, hlink⟩ :=
      hplain name (SpecChainMember.self name) hne hroot.1 hroot.2
    have hCls2 := getGlobalVariable_external P.M _ Cls hCls (hlink Cls hCls)
    obtain ⟨f0, hf0⟩ := ih (fun a ha => hplain a
      (SpecChainMember.up name Cls c a hne hroot hCls hc ha))
    refine ⟨f0 + 1, fun fuel hf => ?_⟩
    obtain ⟨n, rfl⟩ : ∃ n, fuel = n + 1 := ⟨fuel - 1, by omega⟩
    rw [sizeOfClass]
    simp [hne, hnotroot, hCls2, hc, hf0 n (by omega)]

/-- How a name comes to be on an ancestor chain. -/
theorem SpecChainMember.cases_up (P : GNUNonfragileIvarPass) (name a : Str)
    (h : SpecChainMember P name a) :
    a = name ∨ ∃ Cls c, name ≠ [] ∧
      P.M.getGlobalVariable (classPrefix ++ name) true = some Cls ∧
      Cls.initializer = Constant.classStruct c ∧
      SpecChainMember P (getSuperName c) a := by
  cases h with
  | self => exact Or.inl rfl
  | @up _ Cls c _ hne hroot hCls hc hsuper => exact Or.inr ⟨Cls, c, hne, hCls, hc, hsuper⟩

theorem compare0_self (s : Str) : compare0 s s.length s = true := by
  simp [compare0]

/-- The loop returns the offset of the first entry, from `j` on, whose
name begins with `ivarName`. -/
theorem ivarLoop_first (w superSize : Nat) (ivarName : Str) (ivars : List Ivar)
    (i : Nat) (ivar : Ivar) (hi : ivars[i]? = some ivar)
    (hmatch : compare0 ivar.name ivarName.length ivarName = true) :
    ∀ (d j n : Nat), j + d = i → i < j + n →
      (∀ j1 iv, j ≤ j1 → j1 < i → ivars[j1]? = some iv →
        compare0 iv.name ivarName.length ivarName = false) →
      ivarLoop w superSize ivarName ivars j n
        = some (toSizeT w ((superSize : Int) + ivar.offset)) := by
  intro d
  induction d with
  | zero =>
    intro j n hj hn _
    obtain ⟨m, rfl⟩ : ∃ m, n = m + 1 := ⟨n - 1, by omega⟩
    have : j = i := by omega
    subst this
    simp [ivarLoop, hi, hmatch]
  | succ d ih =>
    intro j n hj hn hfirst
    obtain ⟨m, rfl⟩ : ∃ m, n = m + 1 := ⟨n - 1, by omega⟩
    have hlt : j < ivars.length := by
      obtain ⟨h1, _⟩ := List.getElem?_eq_some.1 hi
      omega
    obtain ⟨iv, hiv⟩ : ∃ iv, ivars[j]? = some iv := ⟨ivars[j], List.getElem?_eq_getElem hlt⟩
    have hno := hfirst j iv (le_refl _) (by omega) hiv
    rw [ivarLoop]
    simp only [hiv, hno]
    exact ih (j + 1) m (by omega) (by omega)
      (fun j1 iv1 h1 h2 h3 => hfirst j1 iv1 (by omega) h2 h3)


theorem hardCodedOffset_mono (w : Nat) (P : GNUNonfragileIvarPass) (fuel fuel1 : Nat)
    (className ivarName : Str) (k : Nat) (hle : fuel ≤ fuel1)
    (h : hardCodedOffset w P fuel className ivarName = some k) :
    hardCodedOffset w P fuel1 className ivarName = some k := by
  unfold hardCodedOffset at h ⊢
  cases hg : P.M.getGlobalVariable (classPrefix ++ className) true with
  | none => simpa [hg] using h
  | some Cls =>
    simp only [hg] at h ⊢
    cases hi : Cls.initializer with
    | data => simp [hi] at h
    | classStruct c =>
      simp only [hi] at h ⊢
      cases hs : sizeOfClass w P fuel (getSuperName c) with
      | none => simp [hs] at h
      | some s =>
        rw [sizeOfClass_mono w P fuel fuel1 _ s hle hs]
        simpa [hs] using h

/-- C1 (as amended): when class `className` has metadata, its proper
ancestors all have metadata up to a root, those of them that are not the
root `NSObject` or `Object` have names that do not begin with a
root class name and metadata globals without local linkage, the cumulative
size `k` of the proper ancestors is not zero, and `ivar` is the first
entry of the class's own field list, within its count, whose name begins
with the name of `ivar`, then `hardCodedOffset` returns `k` plus the local
offset of `ivar`, in `size_t` arithmetic, for every sufficient recursion
bound. -/
theorem C1_hardCodedOffset_full_chain (w : Nat) (P : GNUNonfragileIvarPass)
    (className : Str) (Cls : GlobalVariable) (c : ClsStruct) (k i : Nat) (ivar : Ivar)
    (hCls : P.M.getGlobalVariable (classPrefix ++ className) true = some Cls)
    (hc : Cls.initializer = Constant.classStruct c)
    (hk : SpecCumulativeSize w P (getSuperName c) k)
    (hplain : ∀ a, SpecChainMember P (getSuperName c) a → a ≠ [] →
      a ≠ "NSObject".toList → a ≠ "Object".toList → PlainClass P a)
    (hk0 : k ≠ 0)
    (hi : c.ivarList.ivars[i]? = some ivar)
    (hcount : i < (toInt32 c.ivarList.count).toNat)
    (hfirst : ∀ j iv, j < i → c.ivarList.ivars[j]? = some iv →
      compare0 iv.name ivar.name.length ivar.name = false) :
    ∃ fuel0, ∀ fuel, fuel0 ≤ fuel →
      hardCodedOffset w P fuel className ivar.name
        = some (toSizeT w ((k : Int) + ivar.offset)) := by
  obtain ⟨f0, hf0⟩ := sizeOfClass_of_spec w P _ k hk hplain
  refine ⟨f0, fun fuel hf => ?_⟩
  unfold hardCodedOffset
  simp only [hCls, hc, hf0 fuel hf, hk0, if_false]
  exact ivarLoop_first w k ivar.name c.ivarList.ivars i ivar hi (compare0_self _) i 0 _
    (by omega) (by omega) (fun j1 iv _ h2 h3 => hfirst j1 iv h2 h3)

/-- The ancestor chain of `Base` in the example module: `Base` and the
empty name. -/
theorem chain_of_Base (a : Str) (h : SpecChainMember examplePass "Base".toList a) :
    a = "Base".toList ∨ a = [] := by
  rcases SpecChainMember.cases_up examplePass _ a h with h1 | ⟨Cls, c, _, hCls, hc, hsuper⟩
  · exact Or.inl h1
  · have hB : examplePass.M.getGlobalVariable (classPrefix ++ "Base".toList) true
        = some (classGlobal "Base" none (-8) [("isa", 0)]) := by decide
    rw [hB] at hCls
    have hCls' := Option.some.inj hCls
    subst hCls'
    have hc' : c = ClsStruct.mk none (-8) (IvarStruct.mk 1 [Ivar.mk "isa".toList 0]) := by
      have : (classGlobal "Base" none (-8) [("isa", 0)]).initializer
          = Constant.classStruct
              (ClsStruct.mk none (-8) (IvarStruct.mk 1 [Ivar.mk "isa".toList 0])) := by
        decide
      rw [this] at hc
      exact (Constant.classStruct.inj hc).symm
    subst hc'
    rcases SpecChainMember.cases_up examplePass _ a hsuper with h2 | ⟨_, _, hne, _, _, _⟩
    · exact Or.inr h2
    · exact absurd rfl hne

/-- C1, the scenario of the claim: with pointer size 8, `Base` without
superclass and of cumulative size 8, and `Mid : Base` with field `count` at
local offset 0, the offset of `count` in `Mid` is 8. -/
theorem C1_hardCodedOffset_full_chain_witness :
    ∃ fuel0, ∀ fuel, fuel0 ≤ fuel →
      hardCodedOffset 64 examplePass fuel "Mid".toList "count".toList = some 8 :=
  C1_hardCodedOffset_full_chain 64 examplePass "Mid".toList
    (classGlobal "Mid" (some "Base") (-16) [("count", 0), ("total", 8)])
    { super := some "Base".toList, size := -16,
      ivarList := { count := 2, ivars := [⟨"count".toList, 0⟩, ⟨"total".toList, 8⟩] } }
    8 0 ⟨"count".toList, 0⟩
    (by decide) (by decide)
    (SpecCumulativeSize.step "Base".toList (classGlobal "Base" none (-8) [("isa", 0)])
      { super := none, size := -8, ivarList := { count := 1, ivars := [⟨"isa".toList, 0⟩] } }
      0 (by decide) (by decide) (by decide) (by decide) SpecCumulativeSize.noSuper)
    (by
      intro a ha hne _ _
      rcases chain_of_Base a ha with h | h
      · subst h
        refine ⟨by decide, fun g hg => ?_⟩
        have hB : examplePass.M.getGlobalVariable (classPrefix ++ "Base".toList) true
            = some (classGlobal "Base" none (-8) [("isa", 0)]) := by decide
        rw [hB] at hg
        rw [← Option.some.inj hg]
        rfl
      · exact absurd h hne)
    (by decide) (by decide) (by decide) (by intro j iv hj; omega)

/-- C1 (as stated) fails: `Root` has metadata and no superclass, so every
ancestor up to the root is present and its proper ancestors have
cumulative size 0, and `refs` is declared in `Root` at local offset 8; the
claimed result is 8, but `hardCodedOffset` returns 0, the "no offset"
answer, for every recursion bound. -/
theorem C1_counterexample_root_class_field :
    ∃ (Cls : GlobalVariable) (c : ClsStruct) (ivar : Ivar),
      examplePass.M.getGlobalVariable (classPrefix ++ "Root".toList) true = some Cls ∧
      Cls.initializer = Constant.classStruct c ∧
      c.ivarList.ivars[1]? = some ivar ∧
      ivar.name = "refs".toList ∧ ivar.offset = 8 ∧
      (∀ iv ∈ c.ivarList.ivars, iv ≠ ivar →
        compare0 iv.name ivar.name.length ivar.name = false) ∧
      SpecCumulativeSize 64 examplePass (getSuperName c) 0 ∧
      (∀ fuel, hardCodedOffset 64 examplePass (fuel + 1) "Root".toList "refs".toList = some 0) ∧
      (∀ fuel, hardCodedOffset 64 examplePass fuel "Root".toList "refs".toList ≠ some 8) := by
  have h1 : ∀ fuel, hardCodedOffset 64 examplePass (fuel + 1) "Root".toList "refs".toList
      = some 0 := fun fuel =>
    hardCodedOffset_mono 64 examplePass 1 (fuel + 1) _ _ 0 (by omega) (by decide)
  refine ⟨classGlobal "Root" none (-16) [("isa", 0), ("refs", 8)], _, ⟨"refs".toList, 8⟩,
    by decide, rfl, by decide, rfl, rfl, by decide, SpecCumulativeSize.noSuper, h1, ?_⟩
  intro fuel
  cases fuel with
  | zero => decide
  | succ n => rw [h1 n]; decide

/-- The two further conditions of C1 (as amended) are needed. In
`storeModule` the proper ancestors of `Item` all have metadata and have
cumulative size 32 by the specification, but the name `ObjectStore` begins
with `Object` and the offset of `tag` is 8. In `localModule` the proper
ancestors of `Leaf` have cumulative size 24, but the metadata of `Mid` has
local linkage and the offset of `flag` is 0, "no offset". -/
theorem plain_ancestors_needed :
    SpecCumulativeSize 64 (doInitialization storeModule) "ObjectStore".toList 32 ∧
    (∀ fuel, hardCodedOffset 64 (doInitialization storeModule) (fuel + 1) "Item".toList
      "tag".toList = some 8) ∧
    SpecCumulativeSize 64 (doInitialization localModule) "Mid".toList 24 ∧
    (∀ fuel, hardCodedOffset 64 (doInitialization localModule) (fuel + 1) "Leaf".toList
      "flag".toList = some 0) := by
  refine ⟨?_, fun fuel => hardCodedOffset_mono 64 _ 1 (fuel + 1) _ _ 8 (by omega) (by decide),
    ?_, fun fuel => hardCodedOffset_mono 64 _ 1 (fuel + 1) _ _ 0 (by omega) (by decide)⟩
  · exact SpecCumulativeSize.step "ObjectStore".toList
      (classGlobal "ObjectStore" (some "Base") (-24) [("slots", 0)])
      { super := some "Base".toList, size := -24,
        ivarList := { count := 1, ivars := [⟨"slots".toList, 0⟩] } }
      8 (by decide) (by decide) (by decide) (by decide)
      (SpecCumulativeSize.step "Base".toList (classGlobal "Base" none (-8) [("isa", 0)])
        { super := none, size := -8,
          ivarList := { count := 1, ivars := [⟨"isa".toList, 0⟩] } }
        0 (by decide) (by decide) (by decide) (by decide) SpecCumulativeSize.noSuper)
  · exact SpecCumulativeSize.step "Mid".toList
      { name := classPrefix ++ "Mid".toList
        hasLocalLinkage := true
        initializer := Constant.classStruct
          { super := some "Base".toList, size := -16,
            ivarList := { count := 1, ivars := [⟨"count".toList, 0⟩] } } }
      { super := some "Base".toList, size := -16,
        ivarList := { count := 1, ivars := [⟨"count".toList, 0⟩] } }
      8 (by decide) (by decide) (by decide) (by decide)
      (SpecCumulativeSize.step "Base".toList (classGlobal "Base" none (-8) [("isa", 0)])
        { super := none, size := -8,
          ivarList := { count := 1, ivars := [⟨"isa".toList, 0⟩] } }
        0 (by decide) (by decide) (by decide) (by decide) SpecCumulativeSize.noSuper)

/-- C2, the failing input: `Deep : Orphan : MissingAncestor`, where
`MissingAncestor` has no metadata in the module. The ancestor chain of
`Deep` is only partly visible, yet `hardCodedOffset` returns the numeric
offset 16 for field `y` of `Deep`. -/
theorem C2_missing_grandparent_yields_offset :
    examplePass.M.getGlobalVariable (classPrefix ++ "MissingAncestor".toList) true = none ∧
    (∀ fuel, sizeOfClass 64 examplePass (fuel + 1) "MissingAncestor".toList = some 0) ∧
    (∀ fuel, sizeOfClass 64 examplePass (fuel + 2) "Orphan".toList = some 16) ∧
    (∀ fuel, hardCodedOffset 64 examplePass (fuel + 2) "Deep".toList "y".toList = some 16) :=
  ⟨by decide,
   fun fuel => sizeOfClass_mono 64 examplePass 1 (fuel + 1) _ 0 (by omega) (by decide),
   fun fuel => sizeOfClass_mono 64 examplePass 2 (fuel + 2) _ 16 (by omega) (by decide),
   fun fuel => hardCodedOffset_mono 64 examplePass 2 (fuel + 2) _ _ 16 (by omega) (by decide)⟩

/-- C6, the failing input: the field list of `Widget : NSObject` holds the
one entry `counter` (local offset 8) and no entry named `count`, yet
`hardCodedOffset` resolves `count` in `Widget`, to the offset of
`counter`. -/
theorem C6_prefix_of_field_name_resolves :
    (∃ (Cls : GlobalVariable) (c : ClsStruct),
      examplePass.M.getGlobalVariable (classPrefix ++ "Widget".toList) true = some Cls ∧
      Cls.initializer = Constant.classStruct c ∧
      ∀ iv ∈ c.ivarList.ivars, iv.name ≠ "count".toList) ∧
    (∀ fuel, hardCodedOffset 64 examplePass (fuel + 1) "Widget".toList "count".toList
      = some 16) ∧
    (∀ fuel, hardCodedOffset 64 examplePass (fuel + 1) "Widget".toList "counter".toList
      = some 16) :=
  ⟨⟨classGlobal "Widget" (some "NSObject") (-8) [("counter", 8)], _, by decide, rfl, by decide⟩,
   fun fuel => hardCodedOffset_mono 64 examplePass 1 (fuel + 1) _ _ 16 (by omega) (by decide),
   fun fuel => hardCodedOffset_mono 64 examplePass 1 (fuel + 1) _ _ 16 (by omega) (by decide)⟩


/-! ## The scan -/

theorem ScanState.push_nil (st : ScanState) : st.push [] = st := by
  cases st; simp [ScanState.push]

theorem ScanState.push_push (st : ScanState) (R R1 : List Replacement) :
    (st.push R).push R1 = st.push (R ++ R1) := by
  cases R <;> simp [ScanState.push, Bool.or_assoc]

theorem scanBlock_eq (w : Nat) (P : GNUNonfragileIvarPass) (fuel : Nat) (F : Function)
    (B : List Instruction) :
    ∀ st : ScanState, scanBlock w P fuel F B st
      = (blockReplacements w P fuel F B).map st.push := by
  induction B with
  | nil => intro st; simp [scanBlock, blockReplacements, ScanState.push_nil]
  | cons b rest ih =>
    intro st
    rw [scanBlock, blockReplacements]
    cases hm : matchLoads F b with
    | none => simpa using ih st
    | some m =>
      obtain ⟨il, l, ty, name⟩ := m
      simp only []
      by_cases hp : offsetPrefix.isPrefixOf name = true
      · simp only [hp, Bool.not_true, Bool.false_eq_true, if_false]
        unfold siteReplacements
        cases hh : hardCodedOffset w P fuel (split (name.drop prefixLength) '.').1
            (split (name.drop prefixLength) '.').2 with
        | none => simp
        | some offset =>
          simp only []
          by_cases ho : offset = 0
          · simp only [ho, ne_eq, not_true_eq_false, if_false]
            cases hg : P.M.getGlobalVariable (valuePrefix ++ name.drop prefixLength) false with
            | none =>
              simp only []
              rw [ih st]
              cases blockReplacements w P fuel F rest <;> simp
            | some g =>
              simp only []
              rw [ih]
              cases blockReplacements w P fuel F rest with
              | none => simp
              | some R => simp [ScanState.push]
          · simp only [ho, ne_eq, not_false_eq_true, if_true]
            cases hc : ConstantInt.get ty offset with
            | none => simp
            | some c =>
              simp only []
              rw [ih]
              cases blockReplacements w P fuel F rest with
              | none => simp
              | some R => simp [ScanState.push]
      · simp [hp, ScanState.push_nil]

theorem scanBlocks_eq (w : Nat) (P : GNUNonfragileIvarPass) (fuel : Nat) (F : Function)
    (Bs : List BasicBlock) :
    ∀ st : ScanState, scanBlocks w P fuel F Bs st
      = (functionReplacements w P fuel F Bs).map st.push := by
  induction Bs with
  | nil => intro st; simp [scanBlocks, functionReplacements, ScanState.push_nil]
  | cons B rest ih =>
    intro st
    rw [scanBlocks, functionReplacements, scanBlock_eq]
    cases blockReplacements w P fuel F B with
    | none => simp
    | some R =>
      simp only [Option.map_some']
      rw [ih]
      cases functionReplacements w P fuel F rest with
      | none => simp
      | some R1 => simp [ScanState.push_push]

/-- The pass in terms of the list of replacements. -/
theorem runOnFunction_eq (w : Nat) (verifyFunction : Function → Bool)
    (P : GNUNonfragileIvarPass) (fuel : Nat) (F : Function) :
    runOnFunction w verifyFunction P fuel F =
      match functionReplacements w P fuel F F.blocks with
      | none => none
      | some R =>
        match commit R F with
        | none => none
        | some F1 => if verifyFunction F1 then some (!R.isEmpty, F1) else none := by
  unfold runOnFunction
  rw [scanBlocks_eq]
  cases functionReplacements w P fuel F F.blocks with
  | none => simp
  | some R => simp [ScanState.push]


/-! ## The commit loop -/

theorem Instruction.id_mapOperands (f : Value → Value) (i : Instruction) :
    (i.mapOperands f).id = i.id := by
  cases i <;> rfl

theorem Instruction.mapOperands_mapOperands (f g : Value → Value) (i : Instruction) :
    (i.mapOperands g).mapOperands f = i.mapOperands (fun u => f (g u)) := by
  cases i <;> simp [Instruction.mapOperands]

theorem Instruction.operands_mapOperands (f : Value → Value) (i : Instruction) :
    (i.mapOperands f).operands = i.operands.map f := by
  cases i <;> simp [Instruction.mapOperands, Instruction.operands]

theorem map_mapOperands_self (l : List Instruction) :
    l.map (Instruction.mapOperands (fun u => u)) = l := by
  induction l with
  | nil => rfl
  | cons b t ih => rw [List.map_cons, ih]; cases b <;> simp [Instruction.mapOperands]

theorem removeFromParent_eq (F F2 : Function) (x : Nat)
    (h : F.removeFromParent x = some F2) :
    F2.blocks = F.blocks.map (fun B => B.filter (fun i => i.id != x)) ∧
    F2.unlinked = F.unlinked ++ F.linked.filter (fun i => i.id == x) ∧
    ∃ i ∈ F.linked, i.id = x := by
  unfold Function.removeFromParent at h
  by_cases hany : F.linked.any (fun i => i.id == x) = true
  · simp only [hany, if_true, Option.some.injEq] at h
    subst h
    refine ⟨rfl, rfl, ?_⟩
    obtain ⟨i, hi, hx⟩ := List.any_eq_true.1 hany
    exact ⟨i, hi, by simpa using hx⟩
  · simp [hany] at h

theorem committedBlock_cons_none (x : Nat) (rest : List Replacement) (B : BasicBlock) :
    committedBlock rest (B.filter (fun i => i.id != x)) = committedBlock ((x, none) :: rest) B := by
  unfold committedBlock
  rw [List.filter_filter]
  have hs : substOf ((x, none) :: rest) = substOf rest := by funext u; rfl
  rw [hs]
  congr 1
  apply List.filter_congr
  intro i _
  simp only [List.map_cons, List.contains_cons, bne]
  generalize (i.id == x) = a
  generalize (List.map Prod.fst rest).contains i.id = b
  cases a <;> cases b <;> rfl

theorem committedBlock_cons_some (x : Nat) (v : Value) (rest : List Replacement)
    (B : BasicBlock) :
    committedBlock rest
        ((B.map (Instruction.mapOperands (replaceUse x v))).filter (fun i => i.id != x))
      = committedBlock ((x, some v) :: rest) B := by
  unfold committedBlock
  rw [List.filter_filter, List.filter_map, List.map_map]
  have hs : (Instruction.mapOperands (substOf rest) ∘ Instruction.mapOperands (replaceUse x v))
      = Instruction.mapOperands (substOf ((x, some v) :: rest)) := by
    funext i
    simp only [Function.comp, Instruction.mapOperands_mapOperands]
    rfl
  rw [hs]
  congr 1
  apply List.filter_congr
  intro i _
  simp only [Function.comp, Instruction.id_mapOperands, List.map_cons, List.contains_cons, bne]
  generalize (i.id == x) = a
  generalize (List.map Prod.fst rest).contains i.id = b
  cases a <;> cases b <;> rfl

theorem commit_blocks (reps : List Replacement) :
    ∀ F F1 : Function, commit reps F = some F1 →
      F1.blocks = F.blocks.map (committedBlock reps) := by
  induction reps with
  | nil =>
    intro F F1 h
    simp only [commit, Option.some.injEq] at h
    subst h
    have : committedBlock [] = fun B => B := by
      funext B
      unfold committedBlock
      simp only [List.map_nil, List.contains_nil, Bool.not_false, List.filter_true]
      have hs : substOf [] = fun u => u := by funext u; rfl
      rw [hs]
      induction B with
      | nil => rfl
      | cons b t ih =>
        rw [List.map_cons, ih]
        cases b <;> simp [Instruction.mapOperands]
    rw [this]; simp
  | cons r rest ih =>
    intro F F1 h
    obtain ⟨x, v⟩ := r
    cases v with
    | none =>
      simp only [commit] at h
      cases h2 : F.removeFromParent x with
      | none => simp [h2] at h
      | some F2 =>
        simp only [h2] at h
        rw [ih F2 F1 h, (removeFromParent_eq F F2 x h2).1, List.map_map]
        apply List.map_congr_left
        intro B _
        exact committedBlock_cons_none x rest B
    | some v =>
      simp only [commit] at h
      cases h2 : (F.replaceAllUsesWith x v).removeFromParent x with
      | none => simp [h2] at h
      | some F2 =>
        simp only [h2] at h
        rw [ih F2 F1 h, (removeFromParent_eq _ F2 x h2).1]
        simp only [Function.replaceAllUsesWith, List.map_map]
        apply List.map_congr_left
        intro B _
        exact committedBlock_cons_some x v rest B


theorem linked_replaceAllUsesWith (F : Function) (x : Nat) (v : Value) :
    (F.replaceAllUsesWith x v).linked
      = F.linked.map (Instruction.mapOperands (replaceUse x v)) := by
  simp [Function.replaceAllUsesWith, Function.linked, List.map_flatten]

theorem insts_replaceAllUsesWith (F : Function) (x : Nat) (v : Value) :
    (F.replaceAllUsesWith x v).insts
      = F.insts.map (Instruction.mapOperands (replaceUse x v)) := by
  unfold Function.insts
  rw [linked_replaceAllUsesWith, List.map_append]
  rfl

theorem linked_removeFromParent (F F2 : Function) (x : Nat)
    (h : F.removeFromParent x = some F2) :
    F2.linked = F.linked.filter (fun i => i.id != x) := by
  unfold Function.linked
  rw [(removeFromParent_eq F F2 x h).1, List.filter_flatten]

theorem insts_removeFromParent (F F2 : Function) (x : Nat)
    (h : F.removeFromParent x = some F2) :
    F2.insts.Perm F.insts := by
  unfold Function.insts
  rw [linked_removeFromParent F F2 x h, (removeFromParent_eq F F2 x h).2.1]
  have h1 : (F.linked.filter (fun i => i.id != x) ++ F.linked.filter (fun i => i.id == x)).Perm
      F.linked := by
    have := List.filter_append_perm (fun i : Instruction => i.id != x) F.linked
    have he : (fun i : Instruction => !(i.id != x)) = (fun i : Instruction => i.id == x) := by
      funext i; simp [bne]
    rwa [he] at this
  have h2 : (F.linked.filter (fun i => i.id != x)
      ++ (F.unlinked ++ F.linked.filter (fun i => i.id == x))).Perm
      (F.linked.filter (fun i => i.id != x)
        ++ (F.linked.filter (fun i => i.id == x) ++ F.unlinked)) :=
    List.Perm.append_left _ List.perm_append_comm
  refine h2.trans ?_
  rw [← List.append_assoc]
  exact List.Perm.append_right _ h1


/-- One step of the commit loop: the optional `replaceAllUsesWith`. -/
theorem commit_cons (x : Nat) (v : Option Value) (rest : List Replacement) (F F1 : Function)
    (h : commit ((x, v) :: rest) F = some F1) :
    ∃ F2 : Function,
      (∃ i ∈ F.linked, i.id = x) ∧
      (∀ i ∈ F2.linked, i.id ≠ x ∧ ∃ j ∈ F.linked, j.id = i.id) ∧
      F2.insts.Perm (F.insts.map (Instruction.mapOperands (stepUse x v))) ∧
      commit rest F2 = some F1 := by
  cases v with
  | none =>
    simp only [commit] at h
    cases h2 : F.removeFromParent x with
    | none => simp [h2] at h
    | some F2 =>
      simp only [h2] at h
      refine ⟨F2, (removeFromParent_eq F F2 x h2).2.2, ?_, ?_, h⟩
      · intro i hi
        rw [linked_removeFromParent F F2 x h2, List.mem_filter] at hi
        exact ⟨by simpa using hi.2, i, hi.1, rfl⟩
      · have hs : stepUse x none = fun u => u := by funext u; rfl
        rw [hs, map_mapOperands_self]
        exact insts_removeFromParent F F2 x h2
  | some val =>
    simp only [commit] at h
    cases h2 : (F.replaceAllUsesWith x val).removeFromParent x with
    | none => simp [h2] at h
    | some F2 =>
      simp only [h2] at h
      refine ⟨F2, ?_, ?_, ?_, h⟩
      · obtain ⟨i, hi, hx⟩ := (removeFromParent_eq _ F2 x h2).2.2
        rw [linked_replaceAllUsesWith, List.mem_map] at hi
        obtain ⟨j, hj, rfl⟩ := hi
        exact ⟨j, hj, by rwa [Instruction.id_mapOperands] at hx⟩
      · intro i hi
        rw [linked_removeFromParent _ F2 x h2, List.mem_filter, linked_replaceAllUsesWith,
          List.mem_map] at hi
        obtain ⟨⟨j, hj, rfl⟩, hne⟩ := hi
        exact ⟨by simpa using hne, j, hj, by rw [Instruction.id_mapOperands]⟩
      · have := insts_removeFromParent _ F2 x h2
        rw [insts_replaceAllUsesWith] at this
        exact this

theorem substOf_cons (x : Nat) (v : Option Value) (rest : List Replacement) (u : Value) :
    substOf ((x, v) :: rest) u = substOf rest (stepUse x v u) := by
  cases v <;> rfl

/-- A completed commit names each instruction once, and only instructions
linked into the function. -/
theorem commit_ids (reps : List Replacement) :
    ∀ F F1 : Function, commit reps F = some F1 →
      (reps.map Prod.fst).Nodup ∧ ∀ x ∈ reps.map Prod.fst, ∃ i ∈ F.linked, i.id = x := by
  induction reps with
  | nil => intro F F1 _; simp
  | cons r rest ih =>
    intro F F1 h
    obtain ⟨x, v⟩ := r
    obtain ⟨F2, hx, hF2, _, hrest⟩ := commit_cons x v rest F F1 h
    obtain ⟨hnd, hlinked⟩ := ih F2 F1 hrest
    refine ⟨?_, ?_⟩
    · rw [List.map_cons, List.nodup_cons]
      refine ⟨fun hmem => ?_, hnd⟩
      obtain ⟨i, hi, hix⟩ := hlinked x hmem
      exact (hF2 i hi).1 hix
    · intro y hy
      rw [List.map_cons, List.mem_cons] at hy
      rcases hy with rfl | hy
      · exact hx
      · obtain ⟨i, hi, hiy⟩ := hlinked y hy
        obtain ⟨j, hj, hji⟩ := (hF2 i hi).2
        exact ⟨j, hj, by rw [hji, hiy]⟩

/-- The instruction objects after a commit are those before it, with their
operands substituted. -/
theorem commit_insts (reps : List Replacement) :
    ∀ F F1 : Function, commit reps F = some F1 →
      F1.insts.Perm (F.insts.map (Instruction.mapOperands (substOf reps))) := by
  induction reps with
  | nil =>
    intro F F1 h
    simp only [commit, Option.some.injEq] at h
    subst h
    have : ∀ l : List Instruction, l.map (Instruction.mapOperands (substOf [])) = l := by
      intro l
      induction l with
      | nil => rfl
      | cons b t ih => rw [List.map_cons, ih]; cases b <;> simp [Instruction.mapOperands, substOf]
    rw [this]
  | cons r rest ih =>
    intro F F1 h
    obtain ⟨x, v⟩ := r
    obtain ⟨F2, _, _, hperm, hrest⟩ := commit_cons x v rest F F1 h
    refine (ih F2 F1 hrest).trans ?_
    have := hperm.map (Instruction.mapOperands (substOf rest))
    refine this.trans ?_
    rw [List.map_map]
    have he : (Instruction.mapOperands (substOf rest) ∘ Instruction.mapOperands (stepUse x v))
        = Instruction.mapOperands (substOf ((x, v) :: rest)) := by
      funext i
      simp only [Function.comp, Instruction.mapOperands_mapOperands]
      congr 1
      funext u
      rw [substOf_cons]
    rw [he]

/-! ## The substitution -/

theorem substOf_of_not_inst (reps : List Replacement) :
    ∀ u : Value, (∀ y, u ≠ Value.inst y) → substOf reps u = u := by
  induction reps with
  | nil => intro u _; rfl
  | cons r rest ih =>
    intro u hu
    obtain ⟨x, v⟩ := r
    cases v with
    | none => exact ih u hu
    | some val =>
      show substOf rest (replaceUse x val u) = u
      have : replaceUse x val u = u := by simp [replaceUse, hu x]
      rw [this]; exact ih u hu

theorem substOf_inst_of_not_mem (reps : List Replacement) (y : Nat) :
    (∀ v, (y, some v) ∉ reps) → substOf reps (Value.inst y) = Value.inst y := by
  induction reps with
  | nil => intro _; rfl
  | cons r rest ih =>
    intro h
    obtain ⟨x, v⟩ := r
    have hrest : ∀ v, (y, some v) ∉ rest := fun v hv => h v (List.mem_cons_of_mem _ hv)
    cases v with
    | none => exact ih hrest
    | some val =>
      show substOf rest (replaceUse x val (Value.inst y)) = Value.inst y
      have hxy : y ≠ x := by
        rintro rfl
        exact h val (List.mem_cons_self _ _)
      have : replaceUse x val (Value.inst y) = Value.inst y := by
        simp [replaceUse, hxy]
      rw [this]; exact ih hrest

theorem substOf_inst_of_mem (reps : List Replacement) (y : Nat) (v : Value) :
    ClosedReplacements reps → (reps.map Prod.fst).Nodup → (y, some v) ∈ reps →
      substOf reps (Value.inst y) = v := by
  induction reps with
  | nil => intro _ _ h; simp at h
  | cons r rest ih =>
    intro hcl hnd hmem
    obtain ⟨x, v0⟩ := r
    rw [List.map_cons, List.nodup_cons] at hnd
    have hclrest : ClosedReplacements rest :=
      fun a b hab => hcl a b (List.mem_cons_of_mem _ hab)
    rw [List.mem_cons] at hmem
    rcases hmem with heq | hmem
    · obtain ⟨rfl, rfl⟩ : y = x ∧ some v = v0 := by
        simpa [Prod.ext_iff] using heq
      show substOf rest (replaceUse y v (Value.inst y)) = v
      have : replaceUse y v (Value.inst y) = v := by simp [replaceUse]
      rw [this]
      exact substOf_of_not_inst rest v (hcl y v (List.mem_cons_self _ _))
    · have hxy : y ≠ x := by
        rintro rfl
        exact hnd.1 (List.mem_map.2 ⟨(y, some v), hmem, rfl⟩)
      rw [substOf_cons]
      have : stepUse x v0 (Value.inst y) = Value.inst y := by
        cases v0 with
        | none => rfl
        | some val => simp [stepUse, replaceUse, hxy]
      rw [this]
      exact ih hclrest hnd.2 hmem

/-- An operand that is an instruction after the substitution was that
instruction before, and no replacement with a value names it. -/
theorem substOf_eq_inst (reps : List Replacement) (hcl : ClosedReplacements reps) :
    ∀ (u : Value) (z : Nat), substOf reps u = Value.inst z →
      u = Value.inst z ∧ ∀ v, (z, some v) ∉ reps := by
  induction reps with
  | nil => intro u z h; exact ⟨h, by simp⟩
  | cons r rest ih =>
    intro u z h
    obtain ⟨x, v0⟩ := r
    have hclrest : ClosedReplacements rest :=
      fun a b hab => hcl a b (List.mem_cons_of_mem _ hab)
    cases v0 with
    | none =>
      obtain ⟨h1, h2⟩ := ih hclrest u z h
      refine ⟨h1, fun v hv => ?_⟩
      rw [List.mem_cons] at hv
      rcases hv with hv | hv
      · simp [Prod.ext_iff] at hv
      · exact h2 v hv
    | some val =>
      have h' : substOf rest (replaceUse x val u) = Value.inst z := h
      obtain ⟨h1, h2⟩ := ih hclrest _ z h'
      unfold replaceUse at h1
      by_cases hu : u = Value.inst x
      · rw [if_pos hu] at h1
        exact absurd h1 (hcl x val (List.mem_cons_self _ _) z)
      · rw [if_neg hu] at h1
        refine ⟨h1, fun v hv => ?_⟩
        rw [List.mem_cons] at hv
        rcases hv with hv | hv
        · have : z = x := by
            have := congrArg Prod.fst hv
            simpa using this
          exact hu (by rw [h1, this])
        · exact h2 v hv

/-- An operand that is a global after the substitution was that global
before, or an instruction that a replacement turned into it. -/
theorem substOf_eq_global (reps : List Replacement) (hcl : ClosedReplacements reps) :
    ∀ (u : Value) (n : Str), substOf reps u = Value.global n →
      u = Value.global n ∨ ∃ y, u = Value.inst y ∧ (y, some (Value.global n)) ∈ reps := by
  induction reps with
  | nil => intro u n h; exact Or.inl h
  | cons r rest ih =>
    intro u n h
    obtain ⟨x, v0⟩ := r
    have hclrest : ClosedReplacements rest :=
      fun a b hab => hcl a b (List.mem_cons_of_mem _ hab)
    cases v0 with
    | none =>
      rcases ih hclrest u n h with h1 | ⟨y, h1, h2⟩
      · exact Or.inl h1
      · exact Or.inr ⟨y, h1, List.mem_cons_of_mem _ h2⟩
    | some val =>
      have h' : substOf rest (replaceUse x val u) = Value.global n := h
      unfold replaceUse at h'
      by_cases hu : u = Value.inst x
      · rw [if_pos hu] at h'
        rcases ih hclrest val n h' with h1 | ⟨y, h1, _⟩
        · exact Or.inr ⟨x, hu, by rw [h1]; exact List.mem_cons_self _ _⟩
        · exact absurd h1 (hcl x val (List.mem_cons_self _ _) y)
      · rw [if_neg hu] at h'
        rcases ih hclrest u n h' with h1 | ⟨y, h1, h2⟩
        · exact Or.inl h1
        · exact Or.inr ⟨y, h1, List.mem_cons_of_mem _ h2⟩


/-! ## What the scan records -/

theorem getInst_some (F : Function) (x : Nat) (c : Instruction)
    (h : F.getInst x = some c) : c ∈ F.insts ∧ c.id = x := by
  unfold Function.getInst at h
  exact ⟨List.mem_of_find?_eq_some h, by simpa using List.find?_some h⟩

theorem find?_id_of_nodup (l : List Instruction) (hnd : (l.map Instruction.id).Nodup)
    (c : Instruction) (hc : c ∈ l) :
    l.find? (fun i => i.id == c.id) = some c := by
  induction l with
  | nil => simp at hc
  | cons a t ih =>
    rw [List.map_cons, List.nodup_cons] at hnd
    rw [List.mem_cons] at hc
    rcases hc with rfl | hc
    · simp [List.find?_cons]
    · have hne : a.id ≠ c.id := by
        intro he
        exact hnd.1 (he ▸ List.mem_map_of_mem _ hc)
      rw [List.find?_cons]
      have : (a.id == c.id) = false := by simpa using hne
      rw [this]
      exact ih hnd.2 hc

theorem getInst_of_mem (F : Function) (hWF : F.WF) (c : Instruction) (hc : c ∈ F.insts) :
    F.getInst c.id = some c :=
  find?_id_of_nodup F.insts hWF c hc

theorem matchLoads_some (F : Function) (b : Instruction) (il l : Nat) (ty : Ty) (name : Str)
    (h : matchLoads F b = some (il, l, ty, name)) :
    b = Instruction.load il ty (Value.inst l) ∧
    ∃ cty, F.getInst l = some (Instruction.load l cty (Value.global name)) := by
  unfold matchLoads at h
  cases b with
  | other id t ops => simp at h
  | load id t ptr =>
    cases ptr with
    | inst x =>
      simp only [] at h
      cases hg : F.getInst x with
      | none => simp [hg] at h
      | some c =>
        have hid := (getInst_some F x c hg).2
        cases c with
        | other id2 t2 ops => simp [hg] at h
        | load id2 t2 ptr2 =>
          cases ptr2 with
          | global n =>
            simp only [hg, Option.some.injEq, Prod.mk.injEq] at h
            obtain ⟨rfl, rfl, rfl, rfl⟩ := h
            have : id2 = x := hid
            subst this
            exact ⟨rfl, t2, hg⟩
          | inst _ => simp [hg] at h
          | constInt _ _ => simp [hg] at h
          | other _ => simp [hg] at h
    | global _ => simp at h
    | constInt _ _ => simp at h
    | other _ => simp at h

theorem matchLoads_of (F : Function) (il l : Nat) (ty cty : Ty) (name : Str)
    (h : F.getInst l = some (Instruction.load l cty (Value.global name))) :
    matchLoads F (Instruction.load il ty (Value.inst l)) = some (il, l, ty, name) := by
  simp [matchLoads, h]

/-- The three ways in which the loop body ends at a matched site. -/
theorem siteReplacements_cases (w : Nat) (P : GNUNonfragileIvarPass) (fuel : Nat)
    (il l : Nat) (ty : Ty) (name : Str) (rs : List Replacement)
    (h : siteReplacements w P fuel il l ty name = some rs) :
    (∃ k c, hardCodedOffset w P fuel (decodeName name).1 (decodeName name).2 = some k ∧
        k ≠ 0 ∧ ConstantInt.get ty k = some c ∧ rs = [(l, none), (il, some c)]) ∨
    (hardCodedOffset w P fuel (decodeName name).1 (decodeName name).2 = some 0 ∧
      ∃ g, P.M.getGlobalVariable (valuePrefix ++ name.drop prefixLength) false = some g ∧
        rs = [(l, some (Value.global g.name))]) ∨
    (hardCodedOffset w P fuel (decodeName name).1 (decodeName name).2 = some 0 ∧
      P.M.getGlobalVariable (valuePrefix ++ name.drop prefixLength) false = none ∧ rs = []) := by
  unfold siteReplacements at h
  unfold decodeName
  cases hh : hardCodedOffset w P fuel (split (name.drop prefixLength) '.').1
      (split (name.drop prefixLength) '.').2 with
  | none => simp [hh] at h
  | some k =>
    simp only [hh] at h
    by_cases hk : k = 0
    · subst hk
      simp only [ne_eq, not_true_eq_false, if_false] at h
      cases hg : P.M.getGlobalVariable (valuePrefix ++ name.drop prefixLength) false with
      | none =>
        simp only [hg, Option.some.injEq] at h
        exact Or.inr (Or.inr ⟨rfl, rfl, h.symm⟩)
      | some g =>
        simp only [hg, Option.some.injEq] at h
        exact Or.inr (Or.inl ⟨rfl, g, rfl, h.symm⟩)
    · simp only [ne_eq, hk, not_false_eq_true, if_true] at h
      cases hc : ConstantInt.get ty k with
      | none => simp [hc] at h
      | some c =>
        simp only [hc, Option.some.injEq] at h
        exact Or.inl ⟨k, c, rfl, hk, hc, h.symm⟩

theorem ConstantInt.get_not_inst (ty : Ty) (k : Nat) (c : Value)
    (h : ConstantInt.get ty k = some c) : ∀ y, c ≠ Value.inst y := by
  cases ty with
  | other => simp [ConstantInt.get] at h
  | integer bits =>
    simp only [ConstantInt.get, Option.some.injEq] at h
    subst h
    intro y; simp

theorem siteReplacements_closed (w : Nat) (P : GNUNonfragileIvarPass) (fuel : Nat)
    (il l : Nat) (ty : Ty) (name : Str) (rs : List Replacement)
    (h : siteReplacements w P fuel il l ty name = some rs) : ClosedReplacements rs := by
  intro x v hmem y
  rcases siteReplacements_cases w P fuel il l ty name rs h with
    ⟨k, c, _, _, hc, rfl⟩ | ⟨_, g, _, rfl⟩ | ⟨_, _, rfl⟩
  · simp only [List.mem_cons, Prod.mk.injEq, List.mem_singleton, Option.some.injEq,
      List.not_mem_nil, or_false] at hmem
    rcases hmem with ⟨_, h2⟩ | ⟨_, h2⟩
    · simp at h2
    · rw [h2]; exact ConstantInt.get_not_inst ty k c hc y
  · simp only [List.mem_singleton, Prod.mk.injEq, Option.some.injEq] at hmem
    rw [hmem.2]; simp
  · simp at hmem

/-- Every entry recorded for a block comes from a matched site of the
block. -/
theorem blockReplacements_mem (w : Nat) (P : GNUNonfragileIvarPass) (fuel : Nat) (F : Function)
    (B : List Instruction) :
    ∀ R, blockReplacements w P fuel F B = some R → ∀ e ∈ R,
      ∃ b ∈ B, ∃ il l ty name rs, matchLoads F b = some (il, l, ty, name) ∧
        offsetPrefix.isPrefixOf name = true ∧
        siteReplacements w P fuel il l ty name = some rs ∧ e ∈ rs := by
  induction B with
  | nil => intro R h e he; simp [blockReplacements] at h; subst h; simp at he
  | cons b rest ih =>
    intro R h e he
    rw [blockReplacements] at h
    cases hm : matchLoads F b with
    | none =>
      simp only [hm] at h
      obtain ⟨b1, hb1, hx⟩ := ih R h e he
      exact ⟨b1, List.mem_cons_of_mem _ hb1, hx⟩
    | some m =>
      obtain ⟨il, l, ty, name⟩ := m
      simp only [hm] at h
      by_cases hp : offsetPrefix.isPrefixOf name = true
      · simp only [hp, Bool.not_true, Bool.false_eq_true, if_false] at h
        cases hs : siteReplacements w P fuel il l ty name with
        | none => simp [hs] at h
        | some rs =>
          simp only [hs] at h
          cases hr : blockReplacements w P fuel F rest with
          | none => simp [hr] at h
          | some R1 =>
            simp only [hr, Option.some.injEq] at h
            subst h
            rw [List.mem_append] at he
            rcases he with he | he
            · exact ⟨b, List.mem_cons_self _ _, il, l, ty, name, rs, hm, hp, hs, he⟩
            · obtain ⟨b1, hb1, hx⟩ := ih R1 hr e he
              exact ⟨b1, List.mem_cons_of_mem _ hb1, hx⟩
      · simp only [hp, Bool.not_false, if_true, Option.some.injEq] at h
        subst h; simp at he

/-- A matched site that the scan of its block reaches is decided, and its
entries are recorded. -/
theorem blockReplacements_reached (w : Nat) (P : GNUNonfragileIvarPass) (fuel : Nat)
    (F : Function) (b : Instruction) (post : List Instruction)
    (il l : Nat) (ty : Ty) (name : Str)
    (hb : matchLoads F b = some (il, l, ty, name))
    (hp : offsetPrefix.isPrefixOf name = true) :
    ∀ (pre : List Instruction) R, (∀ y ∈ pre, breaksScan F y = false) →
      blockReplacements w P fuel F (pre ++ b :: post) = some R →
      ∃ rs, siteReplacements w P fuel il l ty name = some rs ∧ ∀ e ∈ rs, e ∈ R := by
  intro pre
  induction pre with
  | nil =>
    intro R _ h
    rw [List.nil_append, blockReplacements] at h
    simp only [hb, hp, Bool.not_true, Bool.false_eq_true, if_false] at h
    cases hs : siteReplacements w P fuel il l ty name with
    | none => simp [hs] at h
    | some rs =>
      simp only [hs] at h
      cases hr : blockReplacements w P fuel F post with
      | none => simp [hr] at h
      | some R1 =>
        simp only [hr, Option.some.injEq] at h
        subst h
        exact ⟨rs, rfl, fun e he => List.mem_append_left _ he⟩
  | cons y pre ih =>
    intro R hreach h
    have hy := hreach y (List.mem_cons_self _ _)
    have hpre : ∀ z ∈ pre, breaksScan F z = false :=
      fun z hz => hreach z (List.mem_cons_of_mem _ hz)
    rw [List.cons_append, blockReplacements] at h
    unfold breaksScan at hy
    cases hm : matchLoads F y with
    | none =>
      simp only [hm] at h
      exact ih R hpre h
    | some m =>
      obtain ⟨il2, l2, ty2, name2⟩ := m
      simp only [hm, Bool.not_eq_false'] at hy h
      simp only [hy, Bool.not_true, Bool.false_eq_true, if_false] at h
      cases hs : siteReplacements w P fuel il2 l2 ty2 name2 with
      | none => simp [hs] at h
      | some rs2 =>
        simp only [hs] at h
        cases hr : blockReplacements w P fuel F (pre ++ b :: post) with
        | none => simp [hr] at h
        | some R1 =>
          simp only [hr, Option.some.injEq] at h
          subst h
          obtain ⟨rs, h1, h2⟩ := ih R1 hpre hr
          exact ⟨rs, h1, fun e he => List.mem_append_right _ (h2 e he)⟩

theorem functionReplacements_mem (w : Nat) (P : GNUNonfragileIvarPass) (fuel : Nat)
    (F : Function) (Bs : List BasicBlock) :
    ∀ R, functionReplacements w P fuel F Bs = some R → ∀ e ∈ R,
      ∃ b ∈ Bs.flatten, ∃ il l ty name rs, matchLoads F b = some (il, l, ty, name) ∧
        offsetPrefix.isPrefixOf name = true ∧
        siteReplacements w P fuel il l ty name = some rs ∧ e ∈ rs := by
  induction Bs with
  | nil => intro R h e he; simp [functionReplacements] at h; subst h; simp at he
  | cons B rest ih =>
    intro R h e he
    rw [functionReplacements] at h
    cases hB : blockReplacements w P fuel F B with
    | none => simp [hB] at h
    | some RB =>
      simp only [hB] at h
      cases hr : functionReplacements w P fuel F rest with
      | none => simp [hr] at h
      | some R1 =>
        simp only [hr, Option.some.injEq] at h
        subst h
        rw [List.mem_append] at he
        rcases he with he | he
        · obtain ⟨b, hb, hx⟩ := blockReplacements_mem w P fuel F B RB hB e he
          exact ⟨b, by rw [List.flatten_cons]; exact List.mem_append_left _ hb, hx⟩
        · obtain ⟨b, hb, hx⟩ := ih R1 hr e he
          exact ⟨b, by rw [List.flatten_cons]; exact List.mem_append_right _ hb, hx⟩

theorem functionReplacements_block (w : Nat) (P : GNUNonfragileIvarPass) (fuel : Nat)
    (F : Function) (Bs : List BasicBlock) :
    ∀ R, functionReplacements w P fuel F Bs = some R → ∀ B ∈ Bs,
      ∃ RB, blockReplacements w P fuel F B = some RB ∧ ∀ e ∈ RB, e ∈ R := by
  induction Bs with
  | nil => intro R _ B hB; simp at hB
  | cons B0 rest ih =>
    intro R h B hB
    rw [functionReplacements] at h
    cases hB0 : blockReplacements w P fuel F B0 with
    | none => simp [hB0] at h
    | some RB =>
      simp only [hB0] at h
      cases hr : functionReplacements w P fuel F rest with
      | none => simp [hr] at h
      | some R1 =>
        simp only [hr, Option.some.injEq] at h
        subst h
        rw [List.mem_cons] at hB
        rcases hB with rfl | hB
        · exact ⟨RB, hB0, fun e he => List.mem_append_left _ he⟩
        · obtain ⟨RB1, h1, h2⟩ := ih R1 hr B hB
          exact ⟨RB1, h1, fun e he => List.mem_append_right _ (h2 e he)⟩

theorem functionReplacements_closed (w : Nat) (P : GNUNonfragileIvarPass) (fuel : Nat)
    (F : Function) (Bs : List BasicBlock) (R : List Replacement)
    (h : functionReplacements w P fuel F Bs = some R) : ClosedReplacements R := by
  intro x v hmem y
  obtain ⟨_, _, il, l, ty, name, rs, _, _, hs, he⟩ :=
    functionReplacements_mem w P fuel F Bs R h _ hmem
  exact siteReplacements_closed w P fuel il l ty name rs hs x v he y

/-- The parts of a completed run. -/
theorem runOnFunction_some (w : Nat) (verifyFunction : Function → Bool)
    (P : GNUNonfragileIvarPass) (fuel : Nat) (F F1 : Function) (m : Bool)
    (h : runOnFunction w verifyFunction P fuel F = some (m, F1)) :
    ∃ R, functionReplacements w P fuel F F.blocks = some R ∧ commit R F = some F1 ∧
      verifyFunction F1 = true ∧ m = !R.isEmpty := by
  rw [runOnFunction_eq] at h
  cases hR : functionReplacements w P fuel F F.blocks with
  | none => simp [hR] at h
  | some R =>
    simp only [hR] at h
    cases hc : commit R F with
    | none => simp [hc] at h
    | some F2 =>
      simp only [hc] at h
      by_cases hv : verifyFunction F2 = true
      · simp only [hv, if_true, Option.some.injEq, Prod.mk.injEq] at h
        obtain ⟨h1, h2⟩ := h
        subst h2
        exact ⟨R, rfl, hc, hv, h1.symm⟩
      · simp [hv] at h


/-! ## The rewrite of a site -/

theorem getGlobalVariable_name (M : Module) (Name : Str) (a : Bool) (g : GlobalVariable)
    (h : M.getGlobalVariable Name a = some g) : g.name = Name := by
  unfold Module.getGlobalVariable at h
  cases hf : M.globals.find? (fun g => g.name == Name) with
  | none => simp [hf] at h
  | some g0 =>
    simp only [hf] at h
    have hn : g0.name = Name := by simpa using List.find?_some hf
    by_cases hc : (a || !g0.hasLocalLinkage) = true
    · simp only [hc, if_true, Option.some.injEq] at h
      rw [← h]; exact hn
    · simp [hc] at h

/-- A matched site that the scan reaches, in a completed run. -/
theorem site_recorded (w : Nat) (verifyFunction : Function → Bool)
    (P : GNUNonfragileIvarPass) (fuel : Nat) (F F1 : Function) (m : Bool)
    (pre post : List Instruction) (b : Instruction) (il l : Nat) (ty : Ty) (name : Str)
    (hB : pre ++ b :: post ∈ F.blocks)
    (hreach : ∀ y ∈ pre, breaksScan F y = false)
    (hb : matchLoads F b = some (il, l, ty, name))
    (hp : offsetPrefix.isPrefixOf name = true)
    (hrun : runOnFunction w verifyFunction P fuel F = some (m, F1)) :
    ∃ R rs, functionReplacements w P fuel F F.blocks = some R ∧ commit R F = some F1 ∧
      m = !R.isEmpty ∧ siteReplacements w P fuel il l ty name = some rs ∧
      ∀ e ∈ rs, e ∈ R := by
  obtain ⟨R, hR, hc, _, hm⟩ := runOnFunction_some w verifyFunction P fuel F F1 m hrun
  obtain ⟨RB, hRB, hsub⟩ := functionReplacements_block w P fuel F F.blocks R hR _ hB
  obtain ⟨rs, hrs, hsub2⟩ :=
    blockReplacements_reached w P fuel F b post il l ty name hb hp pre RB hreach hRB
  exact ⟨R, rs, hR, hc, hm, hrs, fun e he => hsub e (hsub2 e he)⟩

theorem isEmpty_of_mem (R : List Replacement) (e : Replacement) (h : e ∈ R) :
    (!R.isEmpty) = true := by
  cases R with
  | nil => simp at h
  | cons _ _ => rfl

/-- An instruction that is not a load of a global is named by a recorded
replacement only as the outer load of a site with a hard-coded offset. -/
theorem recorded_outer (w : Nat) (P : GNUNonfragileIvarPass) (fuel : Nat) (F : Function)
    (hWF : F.WF) (R : List Replacement)
    (hR : functionReplacements w P fuel F F.blocks = some R)
    (b : Instruction) (hbF : b ∈ F.insts) (il l : Nat) (ty : Ty)
    (hbe : b = Instruction.load il ty (Value.inst l))
    (v : Option Value) (hmem : (il, v) ∈ R) :
    ∃ name k, matchLoads F b = some (il, l, ty, name) ∧
      offsetPrefix.isPrefixOf name = true ∧
      hardCodedOffset w P fuel (decodeName name).1 (decodeName name).2 = some k ∧ k ≠ 0 := by
  obtain ⟨b2, hb2, il2, l2, ty2, name2, rs, hm2, hp2, hs2, he⟩ :=
    functionReplacements_mem w P fuel F F.blocks R hR _ hmem
  obtain ⟨hb2e, cty, hg2⟩ := matchLoads_some F b2 il2 l2 ty2 name2 hm2
  have hbid : b.id = il := by rw [hbe]; rfl
  have hgb : F.getInst il = some b := hbid ▸ getInst_of_mem F hWF b hbF
  have inner : il ≠ l2 := by
    rintro rfl
    rw [hgb, hbe] at hg2
    simp at hg2
  rcases siteReplacements_cases w P fuel il2 l2 ty2 name2 rs hs2 with
    ⟨k, c, hk, hk0, _, rfl⟩ | ⟨_, g, _, rfl⟩ | ⟨_, _, rfl⟩
  · simp only [List.mem_cons, Prod.mk.injEq, List.mem_singleton, List.not_mem_nil,
      or_false] at he
    rcases he with ⟨h1, _⟩ | ⟨h1, _⟩
    · exact absurd h1 inner
    · subst h1
      have hb2F : b2 ∈ F.insts := List.mem_append_left _ hb2
      have hb2id : b2.id = il := by rw [hb2e]; rfl
      have : F.getInst il = some b2 := hb2id ▸ getInst_of_mem F hWF b2 hb2F
      rw [hgb, Option.some.injEq] at this
      subst this
      rw [hb2e] at hbe
      simp only [Instruction.load.injEq, Value.inst.injEq, true_and] at hbe
      obtain ⟨rfl, rfl⟩ := hbe
      exact ⟨name2, k, hm2, hp2, hk, hk0⟩
  · simp only [List.mem_singleton, Prod.mk.injEq] at he
    exact absurd he.1 inner
  · simp at he

/-- At a site that the scan reaches (an outer load `il` of an inner load `l` of a
global with the offset prefix, reached by the scan of its block) for
which `hardCodedOffset` returns a resolved offset `k`, a completed run of
`runOnFunction` returns true and leaves the blocks of the function without
a set of removed instructions that holds both loads, and with every
operand sent through a substitution that turns the outer load into the
integer constant `k` of the type of the outer load. -/
theorem reached_resolved_site_rewritten (w : Nat) (verifyFunction : Function → Bool)
    (P : GNUNonfragileIvarPass) (fuel : Nat) (F F1 : Function) (m : Bool)
    (pre post : List Instruction) (b : Instruction) (il l : Nat) (ty : Ty) (name : Str)
    (k : Nat)
    (hB : pre ++ b :: post ∈ F.blocks)
    (hreach : ∀ y ∈ pre, breaksScan F y = false)
    (hb : matchLoads F b = some (il, l, ty, name))
    (hp : offsetPrefix.isPrefixOf name = true)
    (hk : hardCodedOffset w P fuel (decodeName name).1 (decodeName name).2 = some k)
    (hk0 : k ≠ 0)
    (hrun : runOnFunction w verifyFunction P fuel F = some (m, F1)) :
    m = true ∧
    ∃ (c : Value) (σ : Value → Value) (removed : List Nat),
      ConstantInt.get ty k = some c ∧ σ (Value.inst il) = c ∧
      il ∈ removed ∧ l ∈ removed ∧
      F1.blocks = F.blocks.map (fun B =>
        (B.filter (fun i => !removed.contains i.id)).map (Instruction.mapOperands σ)) := by
  obtain ⟨R, rs, hR, hc, hm, hrs, hsub⟩ :=
    site_recorded w verifyFunction P fuel F F1 m pre post b il l ty name hB hreach hb hp hrun
  have hcl := functionReplacements_closed w P fuel F F.blocks R hR
  obtain ⟨hnd, _⟩ := commit_ids R F F1 hc
  rcases siteReplacements_cases w P fuel il l ty name rs hrs with
    ⟨k1, c, hk1, _, hcg, rfl⟩ | ⟨h0, _⟩ | ⟨h0, _⟩
  · have hkk : k1 = k := by rw [hk] at hk1; exact (Option.some.inj hk1).symm
    subst hkk
    have h1 : (l, none) ∈ R := hsub _ (by simp)
    have h2 : (il, some c) ∈ R := hsub _ (by simp)
    refine ⟨by rw [hm]; exact isEmpty_of_mem R _ h1, c, substOf R, R.map Prod.fst, hcg,
      substOf_inst_of_mem R il c hcl hnd h2, List.mem_map.2 ⟨_, h2, rfl⟩,
      List.mem_map.2 ⟨_, h1, rfl⟩, ?_⟩
    exact commit_blocks R F F1 hc
  · rw [hk] at h0; exact absurd (Option.some.inj h0) hk0
  · rw [hk] at h0; exact absurd (Option.some.inj h0) hk0

/-- On `resolvedFunction`: the offset of `Mid.count` is 8, the use of
the outer load becomes the constant 8 of type `i32`, both loads leave the
block. -/
theorem reached_resolved_site_rewritten_example :
    true = true ∧
    ∃ (c : Value) (σ : Value → Value) (removed : List Nat),
      ConstantInt.get (Ty.integer 32) 8 = some c ∧ σ (Value.inst 2) = c ∧
      2 ∈ removed ∧ 1 ∈ removed ∧
      resolvedFunctionAfter.blocks = resolvedFunction.blocks.map (fun B =>
        (B.filter (fun i => !removed.contains i.id)).map (Instruction.mapOperands σ)) :=
  reached_resolved_site_rewritten 64 acceptAll examplePass 3 resolvedFunction resolvedFunctionAfter
    true [loadGlobal 1 "__objc_ivar_offset_Mid.count"] [useInst 3 2] (loadInst 2 1) 2 1
    (Ty.integer 32) "__objc_ivar_offset_Mid.count".toList 8
    (by decide) (by decide) (by decide) (by decide) (by decide) (by decide) (by decide)

/-- A matched site that the scan reaches, where the hard-coded offset
fails and the direct offset variable exists, in a completed run. -/
theorem fallback_recorded (w : Nat) (verifyFunction : Function → Bool)
    (P : GNUNonfragileIvarPass) (fuel : Nat) (F F1 : Function) (m : Bool)
    (pre post : List Instruction) (b : Instruction) (il l : Nat) (ty : Ty) (name : Str)
    (g : GlobalVariable)
    (hWF : F.WF)
    (hB : pre ++ b :: post ∈ F.blocks)
    (hreach : ∀ y ∈ pre, breaksScan F y = false)
    (hb : matchLoads F b = some (il, l, ty, name))
    (hp : offsetPrefix.isPrefixOf name = true)
    (hk : hardCodedOffset w P fuel (decodeName name).1 (decodeName name).2 = some 0)
    (hg : P.M.getGlobalVariable (valuePrefix ++ name.drop prefixLength) false = some g)
    (hrun : runOnFunction w verifyFunction P fuel F = some (m, F1)) :
    ∃ R, commit R F = some F1 ∧ m = true ∧
      substOf R (Value.inst l) = Value.global (valuePrefix ++ name.drop prefixLength) ∧
      substOf R (Value.inst il) = Value.inst il ∧
      l ∈ R.map Prod.fst ∧ il ∉ R.map Prod.fst := by
  obtain ⟨R, rs, hR, hc, hm, hrs, hsub⟩ :=
    site_recorded w verifyFunction P fuel F F1 m pre post b il l ty name hB hreach hb hp hrun
  have hcl := functionReplacements_closed w P fuel F F.blocks R hR
  obtain ⟨hnd, _⟩ := commit_ids R F F1 hc
  have hbe := (matchLoads_some F b il l ty name hb).1
  have hbF : b ∈ F.insts :=
    List.mem_append_left _ (List.mem_flatten.2 ⟨_, hB, by simp⟩)
  have hnot : ∀ v, (il, v) ∉ R := by
    intro v hv
    obtain ⟨name1, k1, hm1, _, hk1, hk10⟩ :=
      recorded_outer w P fuel F hWF R hR b hbF il l ty hbe v hv
    rw [hb] at hm1
    simp only [Option.some.injEq, Prod.mk.injEq, true_and] at hm1
    subst hm1
    rw [hk] at hk1
    exact hk10 (Option.some.inj hk1).symm
  rcases siteReplacements_cases w P fuel il l ty name rs hrs with
    ⟨k1, c, hk1, hk10, _, _⟩ | ⟨_, g1, hg1, rfl⟩ | ⟨_, hg1, _⟩
  · rw [hk] at hk1; exact absurd (Option.some.inj hk1).symm hk10
  · rw [hg] at hg1
    have hgg : g1 = g := (Option.some.inj hg1).symm
    subst hgg
    have hname := getGlobalVariable_name P.M _ false g1 hg
    have h1 : (l, some (Value.global g1.name)) ∈ R := hsub _ (by simp)
    refine ⟨R, hc, by rw [hm]; exact isEmpty_of_mem R _ h1, ?_, ?_,
      List.mem_map.2 ⟨_, h1, rfl⟩, ?_⟩
    · rw [← hname]; exact substOf_inst_of_mem R l _ hcl hnd h1
    · exact substOf_inst_of_not_mem R il (fun v => hnot (some v))
    · intro hmem
      obtain ⟨e, he, hfst⟩ := List.mem_map.1 hmem
      obtain ⟨x, v⟩ := e
      simp only at hfst
      subst hfst
      exact hnot v he
  · rw [hg] at hg1; simp at hg1

/-- An instruction of a block that no replacement names is in the block
after the commit, with its operands substituted. -/
theorem mem_linked_after_commit (R : List Replacement) (F F1 : Function)
    (hc : commit R F = some F1) (B : BasicBlock) (hB : B ∈ F.blocks)
    (b : Instruction) (hb : b ∈ B) (hid : b.id ∉ R.map Prod.fst) :
    b.mapOperands (substOf R) ∈ F1.linked := by
  unfold Function.linked
  rw [commit_blocks R F F1 hc, List.mem_flatten]
  refine ⟨committedBlock R B, List.mem_map_of_mem _ hB, ?_⟩
  unfold committedBlock
  refine List.mem_map_of_mem _ (List.mem_filter.2 ⟨hb, ?_⟩)
  simpa using hid

/-- No instruction after the commit has the identity of a replaced one. -/
theorem not_linked_after_commit (R : List Replacement) (F F1 : Function)
    (hc : commit R F = some F1) (x : Nat) (hx : x ∈ R.map Prod.fst) :
    ∀ i ∈ F1.linked, i.id ≠ x := by
  intro i hi
  unfold Function.linked at hi
  rw [commit_blocks R F F1 hc, List.mem_flatten] at hi
  obtain ⟨B1, hB1, hiB⟩ := hi
  obtain ⟨B, _, rfl⟩ := List.mem_map.1 hB1
  unfold committedBlock at hiB
  obtain ⟨j, hj, rfl⟩ := List.mem_map.1 hiB
  rw [Instruction.id_mapOperands]
  have hkeep := (List.mem_filter.1 hj).2
  intro he
  rw [he] at hkeep
  have hcon : (R.map Prod.fst).contains x = true := by simpa using hx
  rw [hcon] at hkeep
  simp at hkeep

/-- At a site that the scan reaches (an outer load `il` of an inner load `l` of a
global with the offset prefix, reached by the scan of its block) where
`hardCodedOffset` fails and the module has the global named with the
direct offset prefix and the same suffix, a completed run of
`runOnFunction` reports the function as modified, and the outer load is
then in the function as a load of that global. -/
theorem reached_fallback_site_rewritten (w : Nat) (verifyFunction : Function → Bool)
    (P : GNUNonfragileIvarPass) (fuel : Nat) (F F1 : Function) (m : Bool)
    (pre post : List Instruction) (b : Instruction) (il l : Nat) (ty : Ty) (name : Str)
    (g : GlobalVariable)
    (hWF : F.WF)
    (hB : pre ++ b :: post ∈ F.blocks)
    (hreach : ∀ y ∈ pre, breaksScan F y = false)
    (hb : matchLoads F b = some (il, l, ty, name))
    (hp : offsetPrefix.isPrefixOf name = true)
    (hk : hardCodedOffset w P fuel (decodeName name).1 (decodeName name).2 = some 0)
    (hg : P.M.getGlobalVariable (valuePrefix ++ name.drop prefixLength) false = some g)
    (hrun : runOnFunction w verifyFunction P fuel F = some (m, F1)) :
    m = true ∧
    Instruction.load il ty (Value.global (valuePrefix ++ name.drop prefixLength))
      ∈ F1.linked := by
  obtain ⟨R, hc, hm, hl, _, _, hil⟩ :=
    fallback_recorded w verifyFunction P fuel F F1 m pre post b il l ty name g hWF hB hreach
      hb hp hk hg hrun
  have hbe := (matchLoads_some F b il l ty name hb).1
  refine ⟨hm, ?_⟩
  have := mem_linked_after_commit R F F1 hc _ hB b (by simp) (by rw [hbe]; exact hil)
  rw [hbe] at this
  simpa [Instruction.mapOperands, hl] using this

/-- On `fallbackFunction`: class `Ext` has no metadata, the direct
offset variable of `Ext.v` exists, and the outer load reads it after the
run. -/
theorem reached_fallback_site_rewritten_example :
    true = true ∧
    Instruction.load 2 (Ty.integer 32)
        (Value.global (valuePrefix ++ "__objc_ivar_offset_Ext.v".toList.drop prefixLength))
      ∈ fallbackFunctionAfter.linked :=
  reached_fallback_site_rewritten 64 acceptAll examplePass 3 fallbackFunction fallbackFunctionAfter
    true [loadGlobal 1 "__objc_ivar_offset_Ext.v"] [useInst 3 2] (loadInst 2 1) 2 1
    (Ty.integer 32) "__objc_ivar_offset_Ext.v".toList
    (dataGlobal "__objc_ivar_offset_value_Ext.v")
    (by decide) (by decide) (by decide) (by decide) (by decide) (by decide) (by decide)
    (by decide)


theorem siteReplacements_mono (w : Nat) (P : GNUNonfragileIvarPass) (fuel fuel1 : Nat)
    (hle : fuel ≤ fuel1) (il l : Nat) (ty : Ty) (name : Str) (rs : List Replacement)
    (h : siteReplacements w P fuel il l ty name = some rs) :
    siteReplacements w P fuel1 il l ty name = some rs := by
  unfold siteReplacements at h ⊢
  cases hh : hardCodedOffset w P fuel (split (name.drop prefixLength) '.').1
      (split (name.drop prefixLength) '.').2 with
  | none => simp [hh] at h
  | some k =>
    rw [hardCodedOffset_mono w P fuel fuel1 _ _ k hle hh]
    simpa [hh] using h

theorem blockReplacements_mono (w : Nat) (P : GNUNonfragileIvarPass) (fuel fuel1 : Nat)
    (hle : fuel ≤ fuel1) (F : Function) (B : List Instruction) :
    ∀ R, blockReplacements w P fuel F B = some R →
      blockReplacements w P fuel1 F B = some R := by
  induction B with
  | nil => intro R h; simpa [blockReplacements] using h
  | cons b rest ih =>
    intro R h
    rw [blockReplacements] at h ⊢
    cases hm : matchLoads F b with
    | none =>
      simp only [hm] at h ⊢
      exact ih R h
    | some mm =>
      obtain ⟨il, l, ty, name⟩ := mm
      simp only [hm] at h ⊢
      by_cases hp : offsetPrefix.isPrefixOf name = true
      · simp only [hp, Bool.not_true, Bool.false_eq_true, if_false] at h ⊢
        cases hs : siteReplacements w P fuel il l ty name with
        | none => simp [hs] at h
        | some rs =>
          rw [siteReplacements_mono w P fuel fuel1 hle il l ty name rs hs]
          simp only [hs] at h ⊢
          cases hr : blockReplacements w P fuel F rest with
          | none => simp [hr] at h
          | some R1 =>
            rw [ih R1 hr]
            simpa [hr] using h
      · simpa [hp] using h

theorem functionReplacements_mono (w : Nat) (P : GNUNonfragileIvarPass) (fuel fuel1 : Nat)
    (hle : fuel ≤ fuel1) (F : Function) (Bs : List BasicBlock) :
    ∀ R, functionReplacements w P fuel F Bs = some R →
      functionReplacements w P fuel1 F Bs = some R := by
  induction Bs with
  | nil => intro R h; simpa [functionReplacements] using h
  | cons B rest ih =>
    intro R h
    rw [functionReplacements] at h ⊢
    cases hB : blockReplacements w P fuel F B with
    | none => simp [hB] at h
    | some RB =>
      rw [blockReplacements_mono w P fuel fuel1 hle F B RB hB]
      simp only [hB] at h ⊢
      cases hr : functionReplacements w P fuel F rest with
      | none => simp [hr] at h
      | some R1 =>
        rw [ih R1 hr]
        simpa [hr] using h

/-- A run that completes with some recursion bound completes in the same
way with every larger one. -/
theorem runOnFunction_mono (w : Nat) (verifyFunction : Function → Bool)
    (P : GNUNonfragileIvarPass) (fuel fuel1 : Nat) (hle : fuel ≤ fuel1) (F : Function)
    (r : Bool × Function) (h : runOnFunction w verifyFunction P fuel F = some r) :
    runOnFunction w verifyFunction P fuel1 F = some r := by
  rw [runOnFunction_eq] at h ⊢
  cases hR : functionReplacements w P fuel F F.blocks with
  | none => simp [hR] at h
  | some R =>
    rw [functionReplacements_mono w P fuel fuel1 hle F F.blocks R hR]
    simpa [hR] using h

/-- C3, the failing input: in the first block of `breakFunction` a double
load of `other_global` precedes a candidate site for `Mid.count`, whose
offset resolves to 8. The run rewrites the site of the second block and
leaves the site of the first block as it was. -/
theorem C3_break_skips_rest_of_block :
    breaksScan breakFunction (loadInst 2 1) = true ∧
    isCandidate breakFunction (loadInst 4 3) = true ∧
    (∀ fuel, hardCodedOffset 64 examplePass (fuel + 3) "Mid".toList "count".toList = some 8) ∧
    (∀ fuel, runOnFunction 64 acceptAll examplePass (fuel + 3) breakFunction
      = some (true, breakFunctionAfter)) ∧
    loadInst 4 3 ∈ breakFunctionAfter.linked ∧
    loadGlobal 3 "__objc_ivar_offset_Mid.count" ∈ breakFunctionAfter.linked ∧
    useInst 5 4 ∈ breakFunctionAfter.linked :=
  ⟨by decide, by decide,
   fun fuel => hardCodedOffset_mono 64 examplePass 3 (fuel + 3) _ _ 8 (by omega) (by decide),
   fun fuel => runOnFunction_mono 64 acceptAll examplePass 3 (fuel + 3) (by omega) _ _
     (by decide),
   by decide, by decide, by decide⟩

/-! ## Functions without a candidate site, and the returned flag -/

theorem blockReplacements_of_no_candidate (w : Nat) (P : GNUNonfragileIvarPass) (fuel : Nat)
    (F : Function) (B : List Instruction) (h : ∀ b ∈ B, isCandidate F b = false) :
    blockReplacements w P fuel F B = some [] := by
  induction B with
  | nil => rfl
  | cons b rest ih =>
    have hb := h b (List.mem_cons_self _ _)
    rw [blockReplacements]
    unfold isCandidate at hb
    cases hm : matchLoads F b with
    | none => exact ih (fun y hy => h y (List.mem_cons_of_mem _ hy))
    | some mm =>
      obtain ⟨il, l, ty, name⟩ := mm
      simp only [hm] at hb
      simp [hb]

theorem functionReplacements_of_no_candidate (w : Nat) (P : GNUNonfragileIvarPass)
    (fuel : Nat) (F : Function) (Bs : List BasicBlock)
    (h : ∀ b ∈ Bs.flatten, isCandidate F b = false) :
    functionReplacements w P fuel F Bs = some [] := by
  induction Bs with
  | nil => rfl
  | cons B rest ih =>
    rw [functionReplacements,
      blockReplacements_of_no_candidate w P fuel F B
        (fun b hb => h b (by rw [List.flatten_cons]; exact List.mem_append_left _ hb)),
      ih (fun b hb => h b (by rw [List.flatten_cons]; exact List.mem_append_right _ hb))]
    rfl

/-- C9: for a function that contains no load whose address is a load of a
global with the offset prefix, `runOnFunction` records no replacement,
leaves the function as it is and returns false (the verifier accepting the
function). -/
theorem C9_no_candidate_unchanged (w : Nat) (verifyFunction : Function → Bool)
    (P : GNUNonfragileIvarPass) (fuel : Nat) (F : Function)
    (hno : ∀ b ∈ F.linked, isCandidate F b = false)
    (hv : verifyFunction F = true) :
    scanBlocks w P fuel F F.blocks { replacements := [], modified := false }
      = some { replacements := [], modified := false } ∧
    runOnFunction w verifyFunction P fuel F = some (false, F) := by
  have hR := functionReplacements_of_no_candidate w P fuel F F.blocks hno
  refine ⟨?_, ?_⟩
  · rw [scanBlocks_eq, hR]; rfl
  · rw [runOnFunction_eq, hR]
    simp [commit, hv]

/-- C9 on `plainFunction`, which has a single-level load of an
offset variable and a double load of an unrelated global. -/
theorem C9_no_candidate_unchanged_witness :
    scanBlocks 64 examplePass 3 plainFunction plainFunction.blocks
        { replacements := [], modified := false }
      = some { replacements := [], modified := false } ∧
    runOnFunction 64 acceptAll examplePass 3 plainFunction = some (false, plainFunction) :=
  C9_no_candidate_unchanged 64 acceptAll examplePass 3 plainFunction (by decide) (by decide)

/-- C10: a completed run of `runOnFunction` returns true if and only if an
instruction of the function is no longer in it, and returns false exactly
when the function, and its instruction lists, are left as they were. -/
theorem C10_returns_true_iff_changed (w : Nat) (verifyFunction : Function → Bool)
    (P : GNUNonfragileIvarPass) (fuel : Nat) (F F1 : Function) (m : Bool)
    (hrun : runOnFunction w verifyFunction P fuel F = some (m, F1)) :
    (m = true ↔ ∃ i ∈ F.linked, ∀ j ∈ F1.linked, j.id ≠ i.id) ∧
    (m = false ↔ F1.blocks = F.blocks) ∧
    (m = false ↔ F1 = F) := by
  obtain ⟨R, _, hc, _, hm⟩ := runOnFunction_some w verifyFunction P fuel F F1 m hrun
  cases R with
  | nil =>
    simp only [commit, Option.some.injEq] at hc
    subst hc
    have hmf : m = false := by simpa using hm
    subst hmf
    refine ⟨⟨fun h => by simp at h, ?_⟩, by simp, by simp⟩
    rintro ⟨i, hi, hne⟩
    exact absurd rfl (hne i hi)
  | cons r rest =>
    have hmt : m = true := by simpa using hm
    subst hmt
    obtain ⟨_, hlinked⟩ := commit_ids _ F F1 hc
    obtain ⟨i, hi, hix⟩ := hlinked r.1 (by simp)
    have hgone := not_linked_after_commit _ F F1 hc r.1 (by simp)
    have hex : ∃ i ∈ F.linked, ∀ j ∈ F1.linked, j.id ≠ i.id :=
      ⟨i, hi, fun j hj => by rw [hix]; exact hgone j hj⟩
    have hne : F1.blocks ≠ F.blocks := by
      intro he
      have hl : F1.linked = F.linked := by unfold Function.linked; rw [he]
      rw [hl] at hgone
      exact hgone i hi hix
    refine ⟨⟨fun _ => hex, fun _ => rfl⟩, ⟨fun h => by simp at h, fun h => absurd h hne⟩,
      ⟨fun h => by simp at h, fun h => absurd (by rw [h]) hne⟩⟩

/-- C10 on `resolvedFunction`, where the run returns true. -/
theorem C10_returns_true_iff_changed_witness :
    (true = true ↔ ∃ i ∈ resolvedFunction.linked, ∀ j ∈ resolvedFunctionAfter.linked,
      j.id ≠ i.id) ∧
    (true = false ↔ resolvedFunctionAfter.blocks = resolvedFunction.blocks) ∧
    (true = false ↔ resolvedFunctionAfter = resolvedFunction) :=
  C10_returns_true_iff_changed 64 acceptAll examplePass 3 resolvedFunction
    resolvedFunctionAfter true (by decide)


/-! ## Running the pass again -/

theorem commit_WF (R : List Replacement) (F F1 : Function) (hc : commit R F = some F1)
    (hWF : F.WF) : F1.WF := by
  unfold Function.WF at hWF ⊢
  have hp := (commit_insts R F F1 hc).map Instruction.id
  rw [List.map_map] at hp
  have he : (Instruction.id ∘ Instruction.mapOperands (substOf R)) = Instruction.id := by
    funext i; simp [Function.comp, Instruction.id_mapOperands]
  rw [he] at hp
  exact hp.nodup_iff.2 hWF

theorem mem_insts_after_commit (R : List Replacement) (F F1 : Function)
    (hc : commit R F = some F1) (c1 : Instruction) :
    c1 ∈ F1.insts ↔ ∃ c ∈ F.insts, c1 = c.mapOperands (substOf R) := by
  rw [(commit_insts R F F1 hc).mem_iff, List.mem_map]
  constructor
  · rintro ⟨c, hc1, rfl⟩; exact ⟨c, hc1, rfl⟩
  · rintro ⟨c, hc1, rfl⟩; exact ⟨c, hc1, rfl⟩

/-- The instruction objects are found under the same identities after the
commit. -/
theorem getInst_after_commit (R : List Replacement) (F F1 : Function)
    (hc : commit R F = some F1) (hWF : F.WF) (x : Nat) :
    F1.getInst x = (F.getInst x).map (Instruction.mapOperands (substOf R)) := by
  have hWF1 := commit_WF R F F1 hc hWF
  cases hg : F.getInst x with
  | some c =>
    obtain ⟨hcF, hcid⟩ := getInst_some F x c hg
    have hmem : c.mapOperands (substOf R) ∈ F1.insts :=
      (mem_insts_after_commit R F F1 hc _).2 ⟨c, hcF, rfl⟩
    have := getInst_of_mem F1 hWF1 _ hmem
    rw [Instruction.id_mapOperands, hcid] at this
    rw [this]; rfl
  | none =>
    cases hg1 : F1.getInst x with
    | none => rfl
    | some c1 =>
      obtain ⟨hc1F, hc1id⟩ := getInst_some F1 x c1 hg1
      obtain ⟨c, hcF, rfl⟩ := (mem_insts_after_commit R F F1 hc _).1 hc1F
      rw [Instruction.id_mapOperands] at hc1id
      have := getInst_of_mem F hWF c hcF
      rw [hc1id, hg] at this
      simp at this

/-- Where an entry of the recorded replacements comes from. -/
theorem recorded_cases (w : Nat) (P : GNUNonfragileIvarPass) (fuel : Nat) (F : Function)
    (R : List Replacement) (hR : functionReplacements w P fuel F F.blocks = some R)
    (x : Nat) (v : Option Value) (h : (x, v) ∈ R) :
    ∃ b ∈ F.linked, ∃ il l ty name, matchLoads F b = some (il, l, ty, name) ∧
      offsetPrefix.isPrefixOf name = true ∧
      ((∃ k c, hardCodedOffset w P fuel (decodeName name).1 (decodeName name).2 = some k ∧
          k ≠ 0 ∧ ConstantInt.get ty k = some c ∧
          ((x = l ∧ v = none) ∨ (x = il ∧ v = some c))) ∨
       (hardCodedOffset w P fuel (decodeName name).1 (decodeName name).2 = some 0 ∧
          ∃ g, P.M.getGlobalVariable (valuePrefix ++ name.drop prefixLength) false = some g ∧
            x = l ∧ v = some (Value.global g.name))) := by
  obtain ⟨b, hb, il, l, ty, name, rs, hm, hp, hs, he⟩ :=
    functionReplacements_mem w P fuel F F.blocks R hR _ h
  refine ⟨b, hb, il, l, ty, name, hm, hp, ?_⟩
  rcases siteReplacements_cases w P fuel il l ty name rs hs with
    ⟨k, c, hk, hk0, hc, rfl⟩ | ⟨hk, g, hg, rfl⟩ | ⟨_, _, rfl⟩
  · left
    refine ⟨k, c, hk, hk0, hc, ?_⟩
    simp only [List.mem_cons, Prod.mk.injEq, List.mem_singleton, List.not_mem_nil,
      or_false] at he
    exact he
  · right
    simp only [List.mem_singleton, Prod.mk.injEq] at he
    exact ⟨hk, g, hg, he.1, he.2⟩
  · simp at he

/-- A replacement with a value that names a load of a global is the
fallback of a site of that global. -/
theorem recorded_inner_value (w : Nat) (P : GNUNonfragileIvarPass) (fuel : Nat)
    (F : Function) (hWF : F.WF) (R : List Replacement)
    (hR : functionReplacements w P fuel F F.blocks = some R)
    (y : Nat) (v : Value) (h : (y, some v) ∈ R) (cty : Ty) (name : Str)
    (hy : F.getInst y = some (Instruction.load y cty (Value.global name))) :
    offsetPrefix.isPrefixOf name = true ∧
    hardCodedOffset w P fuel (decodeName name).1 (decodeName name).2 = some 0 ∧
    ∃ g, P.M.getGlobalVariable (valuePrefix ++ name.drop prefixLength) false = some g := by
  obtain ⟨b, hb, il, l, ty, name2, hm, hp, hcase⟩ := recorded_cases w P fuel F R hR y _ h
  obtain ⟨hbe, cty2, hg2⟩ := matchLoads_some F b il l ty name2 hm
  rcases hcase with ⟨k, c, _, _, _, ⟨_, hv⟩ | ⟨hx, _⟩⟩ | ⟨hk, g, hg, hx, _⟩
  · simp at hv
  · subst hx
    have hbF : b ∈ F.insts := List.mem_append_left _ hb
    have hid : b.id = y := by rw [hbe]; rfl
    have := getInst_of_mem F hWF b hbF
    rw [hid, hy, hbe] at this
    simp at this
  · subst hx
    rw [hy] at hg2
    simp only [Option.some.injEq, Instruction.load.injEq, Value.global.injEq, true_and] at hg2
    obtain ⟨_, rfl⟩ := hg2
    exact ⟨hp, hk, g, hg⟩

/-- A replacement by a global names an inner load. -/
theorem recorded_global_is_load (w : Nat) (P : GNUNonfragileIvarPass) (fuel : Nat)
    (F : Function) (R : List Replacement)
    (hR : functionReplacements w P fuel F F.blocks = some R)
    (y : Nat) (n : Str) (h : (y, some (Value.global n)) ∈ R) :
    ∃ cty name, F.getInst y = some (Instruction.load y cty (Value.global name)) := by
  obtain ⟨b, _, il, l, ty, name2, hm, _, hcase⟩ := recorded_cases w P fuel F R hR y _ h
  obtain ⟨_, cty2, hg2⟩ := matchLoads_some F b il l ty name2 hm
  rcases hcase with ⟨k, c, _, _, hc, ⟨_, hv⟩ | ⟨_, hv⟩⟩ | ⟨_, g, _, hx, _⟩
  · simp at hv
  · cases ty with
    | other => simp [ConstantInt.get] at hc
    | integer bits =>
      simp only [ConstantInt.get, Option.some.injEq] at hc
      subst hc
      simp at hv
  · subst hx
    exact ⟨cty2, name2, hg2⟩


theorem committedBlock_cons (R : List Replacement) (b : Instruction) (rest : BasicBlock) :
    committedBlock R (b :: rest)
      = if b.id ∈ R.map Prod.fst then committedBlock R rest
        else b.mapOperands (substOf R) :: committedBlock R rest := by
  unfold committedBlock
  by_cases h : b.id ∈ R.map Prod.fst
  · have hc : (R.map Prod.fst).contains b.id = true := by simpa using h
    rw [if_pos h, List.filter_cons]
    simp only [hc, Bool.not_true, Bool.false_eq_true, if_false]
  · have hc : (R.map Prod.fst).contains b.id = false := by simpa using h
    rw [if_neg h, List.filter_cons]
    simp only [hc, Bool.not_false, if_true, List.map_cons]

/-- The outer load of a site is named by no replacement unless the site
has a hard-coded offset. -/
theorem outer_not_recorded (w : Nat) (P : GNUNonfragileIvarPass) (fuel : Nat) (F : Function)
    (hWF : F.WF) (R : List Replacement)
    (hR : functionReplacements w P fuel F F.blocks = some R)
    (b : Instruction) (hbF : b ∈ F.linked) (il l : Nat) (ty : Ty) (name : Str)
    (hb : matchLoads F b = some (il, l, ty, name))
    (hnot : offsetPrefix.isPrefixOf name = false ∨
      hardCodedOffset w P fuel (decodeName name).1 (decodeName name).2 = some 0) :
    b.id ∉ R.map Prod.fst := by
  intro hmem
  obtain ⟨e, he, hfst⟩ := List.mem_map.1 hmem
  obtain ⟨x, v⟩ := e
  simp only at hfst
  subst hfst
  have hbe := (matchLoads_some F b il l ty name hb).1
  have hid : b.id = il := by rw [hbe]; rfl
  rw [hid] at he
  obtain ⟨name1, k1, hm1, hp1, hk1, hk10⟩ :=
    recorded_outer w P fuel F hWF R hR b (List.mem_append_left _ hbF) il l ty hbe v he
  rw [hb] at hm1
  simp only [Option.some.injEq, Prod.mk.injEq, true_and] at hm1
  subst hm1
  rcases hnot with h | h
  · rw [h] at hp1; simp at hp1
  · rw [h] at hk1; exact hk10 (Option.some.inj hk1).symm

/-- A site whose inner load no replacement turns into a value is matched
in the same way after the commit. -/
theorem matchLoads_after_commit (F F1 : Function) (hWF : F.WF) (R : List Replacement)
    (hc : commit R F = some F1)
    (b : Instruction) (il l : Nat) (ty : Ty) (name : Str)
    (hb : matchLoads F b = some (il, l, ty, name))
    (hl : ∀ v, (l, some v) ∉ R) :
    matchLoads F1 (b.mapOperands (substOf R)) = some (il, l, ty, name) := by
  obtain ⟨hbe, cty, hg⟩ := matchLoads_some F b il l ty name hb
  rw [hbe]
  simp only [Instruction.mapOperands]
  rw [substOf_inst_of_not_mem R l hl]
  apply matchLoads_of F1 il l ty cty name
  rw [getInst_after_commit R F F1 hc hWF, hg]
  simp only [Option.map_some', Instruction.mapOperands]
  rw [substOf_of_not_inst R _ (by intro y; simp)]

/-- An instruction that is not a load of a load of a global, and is one
after the commit, is a load whose address is a load that read through
another instruction before the commit and reads the global after it. -/
theorem matchLoads_new_after_commit (w : Nat) (P : GNUNonfragileIvarPass) (fuel : Nat)
    (F F1 : Function) (hWF : F.WF) (R : List Replacement)
    (hR : functionReplacements w P fuel F F.blocks = some R)
    (hc : commit R F = some F1)
    (b : Instruction) (hb : matchLoads F b = none)
    (il l : Nat) (ty : Ty) (name1 : Str)
    (h1 : matchLoads F1 (b.mapOperands (substOf R)) = some (il, l, ty, name1)) :
    b = Instruction.load il ty (Value.inst l) ∧
    (∃ t2 y, F.getInst l = some (Instruction.load l t2 (Value.inst y))) ∧
    (∃ cty, F1.getInst l = some (Instruction.load l cty (Value.global name1))) := by
  have hcl := functionReplacements_closed w P fuel F F.blocks R hR
  obtain ⟨hbe1, cty, hg1⟩ := matchLoads_some F1 _ il l ty name1 h1
  have hg1F := hg1
  cases b with
  | other id t ops => simp [Instruction.mapOperands] at hbe1
  | load id t p =>
    simp only [Instruction.mapOperands, Instruction.load.injEq] at hbe1
    obtain ⟨rfl, rfl, hp⟩ := hbe1
    obtain ⟨rfl, _⟩ := substOf_eq_inst R hcl p l hp
    rw [getInst_after_commit R F F1 hc hWF] at hg1
    cases hg : F.getInst l with
    | none => simp [hg] at hg1
    | some c =>
      simp only [hg, Option.map_some', Option.some.injEq] at hg1
      cases c with
      | other id2 t2 ops2 => simp [Instruction.mapOperands] at hg1
      | load id2 t2 q =>
        simp only [Instruction.mapOperands, Instruction.load.injEq] at hg1
        obtain ⟨rfl, rfl, hq⟩ := hg1
        rcases substOf_eq_global R hcl q name1 hq with rfl | ⟨y, rfl, hy⟩
        · rw [matchLoads_of F id id2 t t2 name1 hg] at hb
          simp at hb
        · exact ⟨rfl, ⟨_, y, rfl⟩, _, hg1F⟩

/-- After the commit, the scan of what is left of a block records
nothing. -/
theorem blockReplacements_after_commit (w : Nat) (P : GNUNonfragileIvarPass) (fuel : Nat)
    (F F1 : Function) (hWF : F.WF) (R : List Replacement)
    (hR : functionReplacements w P fuel F F.blocks = some R)
    (hc : commit R F = some F1) (B : List Instruction) :
    (∀ b ∈ B, b ∈ F.linked) → (∀ b ∈ B, quietAfterFallback w P fuel F F1 b = true) →
    ∀ RB, blockReplacements w P fuel F B = some RB → (∀ e ∈ RB, e ∈ R) →
      blockReplacements w P fuel F1 (committedBlock R B) = some [] := by
  have hcl := functionReplacements_closed w P fuel F F.blocks R hR
  obtain ⟨hnd, _⟩ := commit_ids R F F1 hc
  induction B with
  | nil => intro _ _ RB _ _; rfl
  | cons b rest ih =>
    intro hlinked htriple RB hRB hsub
    have hbF := hlinked b (List.mem_cons_self _ _)
    have hbt := htriple b (List.mem_cons_self _ _)
    have hlrest : ∀ y ∈ rest, y ∈ F.linked := fun y hy => hlinked y (List.mem_cons_of_mem _ hy)
    have htrest : ∀ y ∈ rest, quietAfterFallback w P fuel F F1 y = true :=
      fun y hy => htriple y (List.mem_cons_of_mem _ hy)
    rw [blockReplacements] at hRB
    rw [committedBlock_cons]
    cases hm : matchLoads F b with
    | none =>
      simp only [hm] at hRB
      have hrest := ih hlrest htrest RB hRB hsub
      by_cases hid : b.id ∈ R.map Prod.fst
      · rw [if_pos hid]; exact hrest
      · rw [if_neg hid, blockReplacements]
        cases h1 : matchLoads F1 (b.mapOperands (substOf R)) with
        | none => exact hrest
        | some mm =>
          obtain ⟨il, l, ty, name1⟩ := mm
          obtain ⟨hbe, ⟨t2, y, hgF⟩, cty, hgF1⟩ :=
            matchLoads_new_after_commit w P fuel F F1 hWF R hR hc b hm il l ty name1 h1
          by_cases hp1 : offsetPrefix.isPrefixOf name1 = true
          · have hsite : siteReplacements w P fuel il l ty name1 = some [] := by
              rw [hbe] at hbt
              unfold quietAfterFallback at hbt
              simp only [hgF, hgF1, hp1, Bool.not_true, Bool.false_or, Bool.and_eq_true,
                decide_eq_true_eq, Option.isNone_iff_eq_none, decodeName] at hbt
              simp [siteReplacements, hbt.1, hbt.2]
            simp only [hp1, Bool.not_true, Bool.false_eq_true, if_false, hsite, hrest,
              List.append_nil]
          · simp [Bool.eq_false_iff.2 hp1]
    | some mm =>
      obtain ⟨il, l, ty, name⟩ := mm
      simp only [hm] at hRB
      obtain ⟨hbe, cty, hg⟩ := matchLoads_some F b il l ty name hm
      by_cases hp : offsetPrefix.isPrefixOf name = true
      · simp only [hp, Bool.not_true, Bool.false_eq_true, if_false] at hRB
        cases hs : siteReplacements w P fuel il l ty name with
        | none => simp [hs] at hRB
        | some rs =>
          simp only [hs] at hRB
          cases hr : blockReplacements w P fuel F rest with
          | none => simp [hr] at hRB
          | some R1 =>
            simp only [hr, Option.some.injEq] at hRB
            subst hRB
            have hrest := ih hlrest htrest R1 hr
              (fun e he => hsub e (List.mem_append_right _ he))
            rcases siteReplacements_cases w P fuel il l ty name rs hs with
              ⟨k, c, hk, hk0, hcg, rfl⟩ | ⟨hk, g, hgl, rfl⟩ | ⟨hk, hgl, rfl⟩
            · have h2 : (il, some c) ∈ R := hsub _ (by simp)
              have hid : b.id ∈ R.map Prod.fst := by
                rw [hbe]; exact List.mem_map.2 ⟨_, h2, rfl⟩
              rw [if_pos hid]; exact hrest
            · have h1 : (l, some (Value.global g.name)) ∈ R := hsub _ (by simp)
              have hid := outer_not_recorded w P fuel F hWF R hR b hbF il l ty name hm
                (Or.inr hk)
              rw [if_neg hid, blockReplacements]
              have hnone : matchLoads F1 (b.mapOperands (substOf R)) = none := by
                rw [hbe]
                simp only [Instruction.mapOperands]
                rw [substOf_inst_of_mem R l _ hcl hnd h1]
                simp [matchLoads]
              rw [hnone]; exact hrest
            · have hid := outer_not_recorded w P fuel F hWF R hR b hbF il l ty name hm
                (Or.inr hk)
              have hl : ∀ v, (l, some v) ∉ R := by
                intro v hv
                obtain ⟨_, _, g, hg2⟩ :=
                  recorded_inner_value w P fuel F hWF R hR l v hv cty name hg
                rw [hgl] at hg2; simp at hg2
              rw [if_neg hid, blockReplacements,
                matchLoads_after_commit F F1 hWF R hc b il l ty name hm hl]
              simp only [hp, Bool.not_true, Bool.false_eq_true, if_false, hs, hrest,
                List.append_nil]
      · have hpf : offsetPrefix.isPrefixOf name = false := Bool.eq_false_iff.2 hp
        have hid := outer_not_recorded w P fuel F hWF R hR b hbF il l ty name hm (Or.inl hpf)
        have hl : ∀ v, (l, some v) ∉ R := by
          intro v hv
          obtain ⟨hp2, _⟩ := recorded_inner_value w P fuel F hWF R hR l v hv cty name hg
          exact hp hp2
        rw [if_neg hid, blockReplacements,
          matchLoads_after_commit F F1 hWF R hc b il l ty name hm hl]
        simp [hpf]

theorem functionReplacements_after_commit (w : Nat) (P : GNUNonfragileIvarPass) (fuel : Nat)
    (F F1 : Function) (hWF : F.WF) (R : List Replacement)
    (hR : functionReplacements w P fuel F F.blocks = some R)
    (hc : commit R F = some F1)
    (ht : ∀ b ∈ F.linked, quietAfterFallback w P fuel F F1 b = true) (Bs : List BasicBlock) :
    (∀ B ∈ Bs, B ∈ F.blocks) →
      functionReplacements w P fuel F1 (Bs.map (committedBlock R)) = some [] := by
  induction Bs with
  | nil => intro _; rfl
  | cons B rest ih =>
    intro hBs
    have hB := hBs B (List.mem_cons_self _ _)
    obtain ⟨RB, hRB, hsub⟩ := functionReplacements_block w P fuel F F.blocks R hR B hB
    have hmemB : ∀ b ∈ B, b ∈ F.linked := fun b hb => List.mem_flatten.2 ⟨B, hB, hb⟩
    rw [List.map_cons, functionReplacements,
      blockReplacements_after_commit w P fuel F F1 hWF R hR hc B hmemB
        (fun b hb => ht b (hmemB b hb)) RB hRB hsub,
      ih (fun B1 hB1 => hBs B1 (List.mem_cons_of_mem _ hB1))]
    rfl

/-- C7 (as amended): let a first completed run of `runOnFunction` turn the
function `F`, in which no two instruction objects share an identity, into
`F1`. When, wherever a load of `F` has as its address the outer load of a
site that this run made read a direct offset global, the class and field
decoded from the name of that global have no hard-coded offset and no
direct offset global of their own, then a second run, on `F1`, returns
false and leaves the function exactly as the first run left it. -/
theorem C7_second_run_changes_nothing (w : Nat) (verifyFunction : Function → Bool)
    (P : GNUNonfragileIvarPass) (fuel : Nat) (F F1 : Function) (m : Bool)
    (hWF : F.WF)
    (ht : ∀ b ∈ F.linked, quietAfterFallback w P fuel F F1 b = true)
    (hrun : runOnFunction w verifyFunction P fuel F = some (m, F1)) :
    runOnFunction w verifyFunction P fuel F1 = some (false, F1) := by
  obtain ⟨R, hR, hc, hv, _⟩ := runOnFunction_some w verifyFunction P fuel F F1 m hrun
  have h := functionReplacements_after_commit w P fuel F F1 hWF R hR hc ht F.blocks
    (fun B hB => hB)
  rw [← commit_blocks R F F1 hc] at h
  rw [runOnFunction_eq, h]
  simp [commit, hv]

/-- C7 (as amended) on `tripleFunction` in `fallbackOnlyModule`: the load
`%3` has as its address the outer load `%2` of the site of `Ext.v`, which
the first run makes read the direct offset global of `Ext.v`; the module
has no direct offset global for the class and field decoded from that
name, and the second run changes nothing. -/
theorem C7_second_run_changes_nothing_witness :
    runOnFunction 64 acceptAll (doInitialization fallbackOnlyModule) 3 tripleFunctionAfter
      = some (false, tripleFunctionAfter) :=
  C7_second_run_changes_nothing 64 acceptAll (doInitialization fallbackOnlyModule) 3
    tripleFunction tripleFunctionAfter true (by decide) (by decide) (by decide)


/-- C7 (as stated) fails: on `tripleFunction` the first run replaces the
inner load by the direct offset global of `Ext.v`, whose name also begins
with the offset prefix; the load that follows is then a load of a load of
that global, and the second run rewrites it, returns true and changes the
function. -/
theorem C7_counterexample_second_run_modifies :
    tripleFunction.WF ∧
    (∀ fuel, runOnFunction 64 acceptAll examplePass fuel tripleFunction
      = some (true, tripleFunctionAfter)) ∧
    (∀ fuel, runOnFunction 64 acceptAll examplePass fuel tripleFunctionAfter
      = some (true, tripleFunctionAfter2)) ∧
    tripleFunctionAfter2 ≠ tripleFunctionAfter :=
  ⟨by decide,
   fun fuel => runOnFunction_mono 64 acceptAll examplePass 0 fuel (by omega) _ _ (by decide),
   fun fuel => runOnFunction_mono 64 acceptAll examplePass 0 fuel (by omega) _ _ (by decide),
   by decide⟩

/-- The condition of C7 (as amended) on the examples: it fails on
`tripleFunction` in the example module at the load `%3`, where the module
has a direct offset global for the decoded class and field; it holds on
`tripleFunction` in `fallbackOnlyModule`, and on `resolvedTripleFunction`,
in which a load has as its address the outer load of a site with a
hard-coded offset, and there too the second run changes nothing. -/
theorem quietAfterFallback_on_examples :
    quietAfterFallback 64 examplePass 3 tripleFunction tripleFunctionAfter (loadInst 3 2)
      = false ∧
    (∀ b ∈ tripleFunction.linked,
      quietAfterFallback 64 (doInitialization fallbackOnlyModule) 3 tripleFunction
        tripleFunctionAfter b = true) ∧
    (∀ b ∈ resolvedTripleFunction.linked,
      quietAfterFallback 64 examplePass 3 resolvedTripleFunction
        resolvedTripleFunctionAfter b = true) ∧
    (∀ fuel, runOnFunction 64 acceptAll examplePass (fuel + 3) resolvedTripleFunction
      = some (true, resolvedTripleFunctionAfter)) ∧
    (∀ fuel, runOnFunction 64 acceptAll examplePass fuel resolvedTripleFunctionAfter
      = some (false, resolvedTripleFunctionAfter)) :=
  ⟨by decide, by decide, by decide,
   fun fuel => runOnFunction_mono 64 acceptAll examplePass 3 (fuel + 3) (by omega) _ _
     (by decide),
   fun fuel => runOnFunction_mono 64 acceptAll examplePass 0 fuel (by omega) _ _ (by decide)⟩


/-! ## Root classes and the scenarios of the specification -/

/-- C12: for each of the two root class names `NSObject` and `Object`,
`sizeOfClass` returns the pointer size set by `doInitialization`, which is
4 for a module with 32-bit pointers and 8 otherwise, whatever globals the
module has; and `sizeOfClass` of the empty name is 0. -/
theorem C12_root_class_size (w : Nat) (Mod : Module) (fuel : Nat) :
    sizeOfClass w (doInitialization Mod) (fuel + 1) "NSObject".toList
      = some (doInitialization Mod).PointerSize ∧
    sizeOfClass w (doInitialization Mod) (fuel + 1) "Object".toList
      = some (doInitialization Mod).PointerSize ∧
    (Mod.pointerSize = PointerSize.Pointer32 → (doInitialization Mod).PointerSize = 4) ∧
    (Mod.pointerSize ≠ PointerSize.Pointer32 → (doInitialization Mod).PointerSize = 8) ∧
    sizeOfClass w (doInitialization Mod) (fuel + 1) [] = some 0 := by
  have h1 : ("NSObject".toList : Str) ≠ [] := by decide
  have h2 : ("Object".toList : Str) ≠ [] := by decide
  refine ⟨?_, ?_, ?_, ?_, ?_⟩
  · rw [sizeOfClass]
    simp only [h1, isRootName_NSObject, if_true, if_false]
  · rw [sizeOfClass]
    simp only [h2, isRootName_Object, if_true, if_false]
  · intro h; simp [doInitialization, h]
  · intro h; simp [doInitialization, h]
  · rw [sizeOfClass]; simp

/-- C13, the failing input: in `storeModule` the class `ObjectStore` is
not empty, is neither `NSObject` nor `Object`, and has metadata, with
superclass `Base` of cumulative size 8 and stored size delta -24.
`sizeOfClass` returns the pointer size 8 for it, not 8 - (-24) = 32,
because its name begins with `Object`; the offset of `tag` in
`Item : ObjectStore` is then 8. -/
theorem C13_root_name_prefix_bypasses_metadata :
    (∃ (Cls : GlobalVariable) (c : ClsStruct),
      (doInitialization storeModule).M.getGlobalVariable
        (classPrefix ++ "ObjectStore".toList) false = some Cls ∧
      Cls.initializer = Constant.classStruct c ∧
      getSuperName c = "Base".toList ∧ c.size = -24) ∧
    (∀ fuel, sizeOfClass 64 (doInitialization storeModule) (fuel + 2) "Base".toList = some 8) ∧
    (∀ fuel, sizeOfClass 64 (doInitialization storeModule) (fuel + 1) "ObjectStore".toList
      = some 8) ∧
    toSizeT 64 ((8 : Int) - (-24)) = 32 ∧
    (∀ fuel, hardCodedOffset 64 (doInitialization storeModule) (fuel + 1) "Item".toList
      "tag".toList = some 8) :=
  ⟨⟨classGlobal "ObjectStore" (some "Base") (-24) [("slots", 0)], _, by decide, rfl,
      by decide, by decide⟩,
   fun fuel => sizeOfClass_mono 64 _ 2 (fuel + 2) _ 8 (by omega) (by decide),
   fun fuel => sizeOfClass_mono 64 _ 1 (fuel + 1) _ 8 (by omega) (by decide),
   by decide,
   fun fuel => hardCodedOffset_mono 64 _ 1 (fuel + 1) _ _ 8 (by omega) (by decide)⟩

/-- C14 (as stated) fails: in `exampleModule` (pointer size 8, `Base`
without superclass and of cumulative size 8, `Mid : Base` with 16 bytes of
its own, `Leaf : Mid` with the one field `flag` at local offset 16) the
cumulative size of `Mid` is 24, and `hardCodedOffset` never returns 24 for
`flag` in `Leaf`. -/
theorem C14_counterexample_leaf_flag_not_24 :
    (∀ fuel, sizeOfClass 64 examplePass (fuel + 2) "Base".toList = some 8) ∧
    (∀ fuel, sizeOfClass 64 examplePass (fuel + 3) "Mid".toList = some 24) ∧
    (∀ fuel, hardCodedOffset 64 examplePass fuel "Leaf".toList "flag".toList ≠ some 24) := by
  refine ⟨fun fuel => sizeOfClass_mono 64 _ 2 (fuel + 2) _ 8 (by omega) (by decide),
    fun fuel => sizeOfClass_mono 64 _ 3 (fuel + 3) _ 24 (by omega) (by decide), ?_⟩
  intro fuel h
  have h1 := hardCodedOffset_mono 64 examplePass fuel (fuel + 3) _ _ 24 (by omega) h
  have h2 : hardCodedOffset 64 examplePass (fuel + 3) "Leaf".toList "flag".toList = some 40 :=
    hardCodedOffset_mono 64 examplePass 3 (fuel + 3) _ _ 40 (by omega) (by decide)
  rw [h2] at h1
  exact absurd h1 (by decide)

/-- C14 (as amended): in the scenario with pointer size 8, `Base` without
superclass has cumulative size 8, `Mid : Base` with 16 bytes of its own
has cumulative size 24, and the offset of the field `flag`, at local
offset 16 in `Leaf : Mid`, is 24 + 16 = 40. -/
theorem C14_leaf_flag_offset_40 :
    examplePass.PointerSize = 8 ∧
    (∀ fuel, sizeOfClass 64 examplePass (fuel + 2) "Base".toList = some 8) ∧
    (∀ fuel, sizeOfClass 64 examplePass (fuel + 3) "Mid".toList = some 24) ∧
    (∀ fuel, hardCodedOffset 64 examplePass (fuel + 3) "Leaf".toList "flag".toList
      = some 40) :=
  ⟨by decide,
   fun fuel => sizeOfClass_mono 64 _ 2 (fuel + 2) _ 8 (by omega) (by decide),
   fun fuel => sizeOfClass_mono 64 _ 3 (fuel + 3) _ 24 (by omega) (by decide),
   fun fuel => hardCodedOffset_mono 64 examplePass 3 (fuel + 3) _ _ 40 (by omega) (by decide)⟩

/-- C11, the failing input: the double load of `malformedFunction` reads
the global `__objc_ivar_offset_Mid`, whose suffix `Mid` has no `.`; it is
decoded into the class name `Mid` and the empty field name. `Mid` has
metadata and a non-empty field list, `hardCodedOffset` returns 8 for the
empty field name, and the run records the hard-coded replacement: the use
of the outer load becomes the constant 8. -/
theorem C11_empty_field_name_is_resolved :
    decodeName "__objc_ivar_offset_Mid".toList = ("Mid".toList, []) ∧
    (∀ fuel, hardCodedOffset 64 examplePass (fuel + 2) "Mid".toList [] = some 8) ∧
    functionReplacements 64 examplePass 2 malformedFunction malformedFunction.blocks
      = some [(1, none), (2, some (Value.constInt 32 8))] ∧
    (∀ fuel, runOnFunction 64 acceptAll examplePass (fuel + 2) malformedFunction
      = some (true, malformedFunctionAfter)) :=
  ⟨by decide,
   fun fuel => hardCodedOffset_mono 64 examplePass 2 (fuel + 2) _ _ 8 (by omega) (by decide),
   by decide,
   fun fuel => runOnFunction_mono 64 acceptAll examplePass 2 (fuel + 2) (by omega) _ _
     (by decide)⟩


/-! ## Removed instructions -/

/-- What the scan records does not depend on the recursion bound, once it
records something. -/
theorem functionReplacements_unique (w : Nat) (P : GNUNonfragileIvarPass) (fuel fuel1 : Nat)
    (F : Function) (Bs : List BasicBlock) (R R1 : List Replacement)
    (h : functionReplacements w P fuel F Bs = some R)
    (h1 : functionReplacements w P fuel1 F Bs = some R1) : R1 = R := by
  have a := functionReplacements_mono w P fuel (max fuel fuel1) (le_max_left _ _) F Bs R h
  have b := functionReplacements_mono w P fuel1 (max fuel fuel1) (le_max_right _ _) F Bs R1 h1
  rw [a] at b
  exact (Option.some.inj b).symm

/-- C17, the failing input: in `extraUserFunction` the inner load `%1` of
the site of `Mid.count` is also used by instruction `%4`. The commit loop
removes `%1` all the same: every completed run, with any verifier, leaves
`%4` in the function with `%1` as operand, while `%1` is in no block. -/
theorem C17_removed_load_keeps_a_user :
    functionReplacements 64 examplePass 3 extraUserFunction extraUserFunction.blocks
      = some [(1, none), (2, some (Value.constInt 32 8))] ∧
    commit [(1, none), (2, some (Value.constInt 32 8))] extraUserFunction
      = some extraUserFunctionAfter ∧
    (∀ fuel, runOnFunction 64 acceptAll examplePass (fuel + 3) extraUserFunction
      = some (true, extraUserFunctionAfter)) ∧
    (∀ (verifyFunction : Function → Bool) (fuel : Nat) (r : Bool × Function),
      runOnFunction 64 verifyFunction examplePass fuel extraUserFunction = some r →
        r = (true, extraUserFunctionAfter)) ∧
    (∀ i ∈ extraUserFunctionAfter.linked, i.id ≠ 1) ∧
    (∃ i ∈ extraUserFunctionAfter.linked, Value.inst 1 ∈ i.operands) := by
  have hR : functionReplacements 64 examplePass 3 extraUserFunction extraUserFunction.blocks
      = some [(1, none), (2, some (Value.constInt 32 8))] := by decide
  have hc : commit [(1, none), (2, some (Value.constInt 32 8))] extraUserFunction
      = some extraUserFunctionAfter := by decide
  refine ⟨hR, hc, ?_, ?_, by decide, ⟨useInst 4 1, by decide, by decide⟩⟩
  · intro fuel
    exact runOnFunction_mono 64 acceptAll examplePass 3 (fuel + 3) (by omega) _ _ (by decide)
  · intro verifyFunction fuel r hrun
    obtain ⟨m, F1⟩ := r
    obtain ⟨R, hR1, hc1, _, hm⟩ :=
      runOnFunction_some 64 verifyFunction examplePass fuel extraUserFunction F1 m hrun
    have hRR := functionReplacements_unique 64 examplePass 3 fuel _ _ _ _ hR hR1
    subst hRR
    rw [hc] at hc1
    rw [hm, ← Option.some.inj hc1]
    rfl

/-- C18, the failing input: in `sharedInnerFunction` the outer loads `%2`
and `%3` share the inner load `%1` of the offset variable of `Mid.count`.
The replacement list names `%1` twice, the commit loop calls
`removeFromParent` on `%1` a second time, when it has no parent, and no
run of `runOnFunction` completes. -/
theorem C18_shared_inner_load_recorded_twice :
    sharedInnerFunction.WF ∧
    functionReplacements 64 examplePass 3 sharedInnerFunction sharedInnerFunction.blocks
      = some [(1, none), (2, some (Value.constInt 32 8)),
              (1, none), (3, some (Value.constInt 32 8))] ∧
    ¬ (List.map Prod.fst ([(1, none), (2, some (Value.constInt 32 8)),
        (1, none), (3, some (Value.constInt 32 8))] : List Replacement)).Nodup ∧
    commit [(1, none), (2, some (Value.constInt 32 8)),
            (1, none), (3, some (Value.constInt 32 8))] sharedInnerFunction = none ∧
    (∀ (verifyFunction : Function → Bool) (fuel : Nat),
      runOnFunction 64 verifyFunction examplePass fuel sharedInnerFunction = none) := by
  have hR : functionReplacements 64 examplePass 3 sharedInnerFunction
      sharedInnerFunction.blocks
      = some [(1, none), (2, some (Value.constInt 32 8)),
              (1, none), (3, some (Value.constInt 32 8))] := by decide
  have hc : commit [(1, none), (2, some (Value.constInt 32 8)),
      (1, none), (3, some (Value.constInt 32 8))] sharedInnerFunction = none := by decide
  refine ⟨by decide, hR, by decide, hc, ?_⟩
  intro verifyFunction fuel
  cases hrun : runOnFunction 64 verifyFunction examplePass fuel sharedInnerFunction with
  | none => rfl
  | some r =>
    obtain ⟨m, F1⟩ := r
    obtain ⟨R, hR1, hc1, _, _⟩ :=
      runOnFunction_some 64 verifyFunction examplePass fuel sharedInnerFunction F1 m hrun
    have hRR := functionReplacements_unique 64 examplePass 3 fuel _ _ _ _ hR hR1
    subst hRR
    rw [hc] at hc1
    simp at hc1


/-! ## The value of a resolved offset -/

theorem getGlobalVariable_mapIvarLists (f : IvarStruct → IvarStruct) (M : Module)
    (Name : Str) (a : Bool) :
    (M.mapIvarLists f).getGlobalVariable Name a
      = (M.getGlobalVariable Name a).map (fun g =>
          { name := g.name
            hasLocalLinkage := g.hasLocalLinkage
            initializer := g.initializer.mapIvarList f }) := by
  unfold Module.getGlobalVariable Module.mapIvarLists
  simp only [List.find?_map]
  have he : ((fun g : GlobalVariable => g.name == Name) ∘ fun g : GlobalVariable =>
      ({ name := g.name, hasLocalLinkage := g.hasLocalLinkage,
         initializer := g.initializer.mapIvarList f } : GlobalVariable))
      = fun g : GlobalVariable => g.name == Name := by
    funext g; rfl
  rw [he]
  cases hf : M.globals.find? (fun g => g.name == Name) with
  | none => rfl
  | some g =>
    simp only [Option.map_some']
    by_cases hc : (a || !g.hasLocalLinkage) = true
    · simp only [hc, if_true, Option.map_some']
    · simp only [hc, if_false, Option.map_none', Bool.false_eq_true]

/-- The size of a class does not depend on any ivar list. -/
theorem sizeOfClass_mapIvarLists (w : Nat) (P : GNUNonfragileIvarPass)
    (f : IvarStruct → IvarStruct) (fuel : Nat) :
    ∀ className : Str,
      sizeOfClass w { M := P.M.mapIvarLists f, PointerSize := P.PointerSize } fuel className
        = sizeOfClass w P fuel className := by
  induction fuel with
  | zero => intro className; rfl
  | succ n ih =>
    intro className
    rw [sizeOfClass, sizeOfClass]
    by_cases h1 : className = []
    · simp [h1]
    · by_cases h2 : isRootName className = true
      · simp [h1, h2]
      · simp only [h1, h2, if_false, getGlobalVariable_mapIvarLists]
        cases hg : P.M.getGlobalVariable (classPrefix ++ className) false with
        | none => rfl
        | some Cls =>
          simp only [Option.map_some']
          cases hi : Cls.initializer with
          | data => simp [hi, Constant.mapIvarList]
          | classStruct c =>
            simp only [hi, Constant.mapIvarList]
            have hs : getSuperName { c with ivarList := f c.ivarList } = getSuperName c := rfl
            rw [hs, ih]

/-- A non-zero result of the loop is the offset of the first entry, from
`j` on and within `n` iterations, whose name begins with `ivarName`. -/
theorem ivarLoop_nonzero (w superSize : Nat) (ivarName : Str) (ivars : List Ivar) (v : Nat)
    (hv : v ≠ 0) :
    ∀ (n j : Nat), ivarLoop w superSize ivarName ivars j n = some v →
      ∃ i ivar, j ≤ i ∧ i < j + n ∧ ivars[i]? = some ivar ∧
        compare0 ivar.name ivarName.length ivarName = true ∧
        (∀ j1 iv, j ≤ j1 → j1 < i → ivars[j1]? = some iv →
          compare0 iv.name ivarName.length ivarName = false) ∧
        v = toSizeT w ((superSize : Int) + ivar.offset) := by
  intro n
  induction n with
  | zero =>
    intro j h
    simp only [ivarLoop, Option.some.injEq] at h
    exact absurd h.symm hv
  | succ n ih =>
    intro j h
    rw [ivarLoop] at h
    cases hj : ivars[j]? with
    | none => simp [hj] at h
    | some ivar =>
      simp only [hj] at h
      by_cases hm : compare0 ivar.name ivarName.length ivarName = true
      · simp only [hm, if_true, Option.some.injEq] at h
        exact ⟨j, ivar, le_refl _, by omega, hj, hm, fun j1 iv h1 h2 => by omega, h.symm⟩
      · simp only [hm, if_false, Bool.false_eq_true] at h
        obtain ⟨i, iv, h1, h2, h3, h4, h5, h6⟩ := ih (j + 1) h
        refine ⟨i, iv, by omega, by omega, h3, h4, ?_, h6⟩
        intro j1 iv1 hj1 hj2 hj3
        by_cases he : j1 = j
        · subst he
          rw [hj] at hj3
          rw [← Option.some.inj hj3]
          exact Bool.eq_false_iff.2 hm
        · exact h5 j1 iv1 (by omega) hj2 hj3

/-- Whenever `hardCodedOffset` returns a non-zero value `v` for class
`className` and field name `ivarName`, the class has metadata, the size
`s` of its superclass is non-zero, and `v` is `s` plus the local offset,
in `size_t` arithmetic, of the first entry of the class's own field list,
within its count, whose name the comparison of line 76 matches with
`ivarName`. Entries after that entry do not influence the result, and the
size `s` is the same whatever the field lists of the module are. -/
theorem nonzero_offset_is_first_prefix_match (w : Nat) (P : GNUNonfragileIvarPass)
    (fuel : Nat) (className ivarName : Str) (v : Nat)
    (h : hardCodedOffset w P fuel className ivarName = some v) (hv : v ≠ 0) :
    ∃ (Cls : GlobalVariable) (c : ClsStruct) (s i : Nat) (ivar : Ivar),
      P.M.getGlobalVariable (classPrefix ++ className) true = some Cls ∧
      Cls.initializer = Constant.classStruct c ∧
      sizeOfClass w P fuel (getSuperName c) = some s ∧ s ≠ 0 ∧
      i < (toInt32 c.ivarList.count).toNat ∧
      c.ivarList.ivars[i]? = some ivar ∧
      compare0 ivar.name ivarName.length ivarName = true ∧
      (∀ j iv, j < i → c.ivarList.ivars[j]? = some iv →
        compare0 iv.name ivarName.length ivarName = false) ∧
      v = toSizeT w ((s : Int) + ivar.offset) ∧
      (∀ later : List Ivar,
        ivarLoop w s ivarName (c.ivarList.ivars.take (i + 1) ++ later) 0
          (toInt32 c.ivarList.count).toNat = some v) ∧
      (∀ f : IvarStruct → IvarStruct,
        sizeOfClass w { M := P.M.mapIvarLists f, PointerSize := P.PointerSize } fuel
          (getSuperName c) = some s) := by
  unfold hardCodedOffset at h
  cases hg : P.M.getGlobalVariable (classPrefix ++ className) true with
  | none =>
    simp only [hg, Option.some.injEq] at h
    exact absurd h.symm hv
  | some Cls =>
    simp only [hg] at h
    cases hi : Cls.initializer with
    | data => simp [hi] at h
    | classStruct c =>
      simp only [hi] at h
      cases hs : sizeOfClass w P fuel (getSuperName c) with
      | none => simp [hs] at h
      | some s =>
        simp only [hs] at h
        by_cases hs0 : s = 0
        · simp only [hs0, if_true, Option.some.injEq] at h
          exact absurd h.symm hv
        · simp only [hs0, if_false] at h
          obtain ⟨i, ivar, _, h2, h3, h4, h5, h6⟩ :=
            ivarLoop_nonzero w s ivarName c.ivarList.ivars v hv _ 0 h
          have hlen : i < c.ivarList.ivars.length := (List.getElem?_eq_some.1 h3).1
          refine ⟨Cls, c, s, i, ivar, rfl, hi, hs, hs0, by omega, h3, h4,
            fun j iv hj hiv => h5 j iv (Nat.zero_le _) hj hiv, h6, ?_, ?_⟩
          · intro later
            have htake : ∀ j, j < i + 1 →
                (c.ivarList.ivars.take (i + 1) ++ later)[j]? = c.ivarList.ivars[j]? := by
              intro j hj
              rw [List.getElem?_append_left (by rw [List.length_take]; omega),
                List.getElem?_take_of_lt hj]
            rw [h6]
            exact ivarLoop_first w s ivarName _ i ivar
              (by rw [htake i (by omega)]; exact h3) h4 i 0 _ (by omega) (by omega)
              (fun j1 iv _ hj2 hj3 => h5 j1 iv (Nat.zero_le _) hj2
                (by rw [← htake j1 (by omega)]; exact hj3))
          · intro f
            rw [sizeOfClass_mapIvarLists]
            exact hs

/-- On the example module: the offset 8 of `count` in `Mid`. -/
theorem nonzero_offset_is_first_prefix_match_example :
    ∃ (Cls : GlobalVariable) (c : ClsStruct) (s i : Nat) (ivar : Ivar),
      examplePass.M.getGlobalVariable (classPrefix ++ "Mid".toList) true = some Cls ∧
      Cls.initializer = Constant.classStruct c ∧
      sizeOfClass 64 examplePass 3 (getSuperName c) = some s ∧ s ≠ 0 ∧
      i < (toInt32 c.ivarList.count).toNat ∧
      c.ivarList.ivars[i]? = some ivar ∧
      compare0 ivar.name "count".toList.length "count".toList = true ∧
      (∀ j iv, j < i → c.ivarList.ivars[j]? = some iv →
        compare0 iv.name "count".toList.length "count".toList = false) ∧
      8 = toSizeT 64 ((s : Int) + ivar.offset) ∧
      (∀ later : List Ivar,
        ivarLoop 64 s "count".toList (c.ivarList.ivars.take (i + 1) ++ later) 0
          (toInt32 c.ivarList.count).toNat = some 8) ∧
      (∀ f : IvarStruct → IvarStruct,
        sizeOfClass 64 { M := examplePass.M.mapIvarLists f,
                         PointerSize := examplePass.PointerSize } 3
          (getSuperName c) = some s) :=
  nonzero_offset_is_first_prefix_match 64 examplePass 3 "Mid".toList "count".toList 8
    (by decide) (by decide)


/-! ## A class whose superclass is missing -/

/-- With a named superclass that is no root name and has no metadata,
`hardCodedOffset` answers 0 whenever it answers. -/
theorem hardCodedOffset_missing_super (w : Nat) (P : GNUNonfragileIvarPass)
    (className superName : Str) (Cls : GlobalVariable) (c : ClsStruct)
    (hCls : P.M.getGlobalVariable (classPrefix ++ className) true = some Cls)
    (hc : Cls.initializer = Constant.classStruct c)
    (hsuper : c.super = some superName)
    (hne : superName ≠ [])
    (hroot : isRootName superName = false)
    (hmiss : P.M.getGlobalVariable (classPrefix ++ superName) false = none)
    (ivarName : Str) :
    (∀ fuel, hardCodedOffset w P (fuel + 1) className ivarName = some 0) ∧
    (∀ fuel k, hardCodedOffset w P fuel className ivarName = some k → k = 0) := by
  have hname : getSuperName c = superName := by simp [getSuperName, hsuper]
  have hsize : ∀ fuel, sizeOfClass w P (fuel + 1) superName = some 0 := by
    intro fuel
    rw [sizeOfClass]
    simp [hne, hroot, hmiss]
  have h1 : ∀ fuel, hardCodedOffset w P (fuel + 1) className ivarName = some 0 := by
    intro fuel
    unfold hardCodedOffset
    simp [hCls, hc, hname, hsize fuel]
  refine ⟨h1, ?_⟩
  intro fuel k hk
  have := hardCodedOffset_mono w P fuel (fuel + 1) className ivarName k (by omega) hk
  rw [h1 fuel] at this
  exact (Option.some.inj this).symm

/-- The loads of a site without hard-coded offset and without direct
offset variable are named by no replacement. -/
theorem unresolved_site_not_recorded (w : Nat) (P : GNUNonfragileIvarPass) (fuel : Nat)
    (F : Function) (hWF : F.WF) (R : List Replacement)
    (hR : functionReplacements w P fuel F F.blocks = some R)
    (b : Instruction) (hbF : b ∈ F.linked) (il l : Nat) (ty : Ty) (name : Str)
    (hb : matchLoads F b = some (il, l, ty, name))
    (hk : ∀ k, hardCodedOffset w P fuel (decodeName name).1 (decodeName name).2 = some k →
      k = 0)
    (hg : P.M.getGlobalVariable (valuePrefix ++ name.drop prefixLength) false = none) :
    il ∉ R.map Prod.fst ∧ l ∉ R.map Prod.fst := by
  obtain ⟨hbe, cty, hgl⟩ := matchLoads_some F b il l ty name hb
  constructor
  · intro hmem
    obtain ⟨e, he, hfst⟩ := List.mem_map.1 hmem
    obtain ⟨x, v⟩ := e
    simp only at hfst
    subst hfst
    obtain ⟨name1, k1, hm1, _, hk1, hk10⟩ :=
      recorded_outer w P fuel F hWF R hR b (List.mem_append_left _ hbF) x l ty hbe v he
    rw [hb] at hm1
    simp only [Option.some.injEq, Prod.mk.injEq, true_and] at hm1
    subst hm1
    exact hk10 (hk k1 hk1)
  · intro hmem
    obtain ⟨e, he, hfst⟩ := List.mem_map.1 hmem
    obtain ⟨x, v⟩ := e
    simp only at hfst
    subst hfst
    obtain ⟨b2, hb2, il2, l2, ty2, name2, hm2, _, hcase⟩ :=
      recorded_cases w P fuel F R hR x v he
    obtain ⟨hb2e, cty2, hg2⟩ := matchLoads_some F b2 il2 l2 ty2 name2 hm2
    have same : x = l2 → name2 = name := by
      intro hx
      rw [← hx, hgl] at hg2
      simp only [Option.some.injEq, Instruction.load.injEq, Value.global.injEq,
        true_and] at hg2
      exact hg2.2.symm
    rcases hcase with ⟨k, c, hk2, hk0, _, ⟨hx, _⟩ | ⟨hx, _⟩⟩ | ⟨_, g, hg3, hx, _⟩
    · rw [same hx] at hk2
      exact hk0 (hk k hk2)
    · have hid : b2.id = x := by rw [hb2e, hx]; rfl
      have := getInst_of_mem F hWF b2 (List.mem_append_left _ hb2)
      rw [hid, hgl, hb2e] at this
      simp at this
    · rw [same hx, hg] at hg3
      simp at hg3

/-- When class `className` has metadata, its direct superclass is named,
does not begin with a root class name and has no metadata in the module,
then `hardCodedOffset` answers 0, "no offset", for every field name; and
a completed run of `runOnFunction` leaves the outer load `b` and the inner
load of a site of that class in the function as they were, when the
module has no direct offset global for the site. -/
theorem missing_superclass_site_untouched (w : Nat) (verifyFunction : Function → Bool)
    (P : GNUNonfragileIvarPass) (fuel : Nat) (F F1 : Function) (m : Bool)
    (className superName : Str) (Cls : GlobalVariable) (c : ClsStruct)
    (b : Instruction) (il l : Nat) (ty cty : Ty) (name : Str)
    (hCls : P.M.getGlobalVariable (classPrefix ++ className) true = some Cls)
    (hc : Cls.initializer = Constant.classStruct c)
    (hsuper : c.super = some superName)
    (hne : superName ≠ [])
    (hroot : isRootName superName = false)
    (hmiss : P.M.getGlobalVariable (classPrefix ++ superName) false = none)
    (hWF : F.WF)
    (hbF : b ∈ F.linked)
    (hb : matchLoads F b = some (il, l, ty, name))
    (hinner : Instruction.load l cty (Value.global name) ∈ F.linked)
    (hname : (decodeName name).1 = className)
    (hg : P.M.getGlobalVariable (valuePrefix ++ name.drop prefixLength) false = none)
    (hrun : runOnFunction w verifyFunction P fuel F = some (m, F1)) :
    (∀ (ivarName : Str) (fuel1 : Nat),
      hardCodedOffset w P (fuel1 + 1) className ivarName = some 0) ∧
    b ∈ F1.linked ∧ Instruction.load l cty (Value.global name) ∈ F1.linked := by
  refine ⟨fun ivarName fuel1 =>
    (hardCodedOffset_missing_super w P className superName Cls c hCls hc hsuper hne hroot
      hmiss ivarName).1 fuel1, ?_⟩
  obtain ⟨R, hR, hcm, _, _⟩ := runOnFunction_some w verifyFunction P fuel F F1 m hrun
  have hk : ∀ k, hardCodedOffset w P fuel (decodeName name).1 (decodeName name).2 = some k →
      k = 0 := by
    intro k hk
    rw [hname] at hk
    exact (hardCodedOffset_missing_super w P className superName Cls c hCls hc hsuper hne
      hroot hmiss _).2 fuel k hk
  obtain ⟨hil, hl⟩ :=
    unresolved_site_not_recorded w P fuel F hWF R hR b hbF il l ty name hb hk hg
  have hbe := (matchLoads_some F b il l ty name hb).1
  obtain ⟨B, hB, hbB⟩ := List.mem_flatten.1 hbF
  obtain ⟨B2, hB2, hcB2⟩ := List.mem_flatten.1 hinner
  have hlv : ∀ v, (l, some v) ∉ R :=
    fun v hv => hl (List.mem_map.2 ⟨_, hv, rfl⟩)
  constructor
  · have := mem_linked_after_commit R F F1 hcm B hB b hbB (by rw [hbe]; exact hil)
    rw [hbe] at this ⊢
    simpa [Instruction.mapOperands, substOf_inst_of_not_mem R l hlv] using this
  · have := mem_linked_after_commit R F F1 hcm B2 hB2 _ hcB2 hl
    simpa [Instruction.mapOperands, substOf_of_not_inst R (Value.global name)
      (by intro y; simp)] using this

/-- On `orphanFunction`: `Orphan : MissingAncestor` with field `x`,
where `MissingAncestor` has no metadata and `Orphan.x` no direct offset
global. -/
theorem missing_superclass_site_untouched_example :
    (∀ (ivarName : Str) (fuel1 : Nat),
      hardCodedOffset 64 examplePass (fuel1 + 1) "Orphan".toList ivarName = some 0) ∧
    loadInst 2 1 ∈ orphanFunction.linked ∧
    Instruction.load 1 Ty.other (Value.global "__objc_ivar_offset_Orphan.x".toList)
      ∈ orphanFunction.linked :=
  missing_superclass_site_untouched 64 acceptAll examplePass 3 orphanFunction
    orphanFunction false "Orphan".toList "MissingAncestor".toList
    (classGlobal "Orphan" (some "MissingAncestor") (-16) [("x", 0)])
    { super := some "MissingAncestor".toList, size := -16,
      ivarList := { count := 1, ivars := [⟨"x".toList, 0⟩] } }
    (loadInst 2 1) 2 1 (Ty.integer 32) Ty.other "__objc_ivar_offset_Orphan.x".toList
    (by decide) (by decide) (by decide) (by decide) (by decide) (by decide) (by decide)
    (by decide) (by decide) (by decide) (by decide) (by decide) (by decide)


/-! ## Termination of the recursion of `sizeOfClass` -/

theorem getGlobalVariable_mem (M : Module) (Name : Str) (a : Bool) (g : GlobalVariable)
    (h : M.getGlobalVariable Name a = some g) : g ∈ M.globals := by
  unfold Module.getGlobalVariable at h
  cases hf : M.globals.find? (fun g => g.name == Name) with
  | none => simp [hf] at h
  | some g0 =>
    simp only [hf] at h
    by_cases hc : (a || !g0.hasLocalLinkage) = true
    · simp only [hc, if_true, Option.some.injEq] at h
      rw [← h]; exact List.mem_of_find?_eq_some hf
    · simp [hc] at h

theorem superclassOf_some (M : Module) (className s : Str)
    (h : superclassOf M className = some s) :
    ∃ g c, M.getGlobalVariable (classPrefix ++ className) false = some g ∧
      g.initializer = Constant.classStruct c ∧ getSuperName c = s := by
  unfold superclassOf at h
  cases hg : M.getGlobalVariable (classPrefix ++ className) false with
  | none => simp [hg] at h
  | some g =>
    simp only [hg] at h
    cases hi : g.initializer with
    | data => simp [hi] at h
    | classStruct c =>
      simp only [hi, Option.some.injEq] at h
      exact ⟨g, c, rfl, hi, h⟩

theorem nextClass_some (P : GNUNonfragileIvarPass) (className s : Str)
    (h : nextClass P className = some s) :
    className ≠ [] ∧ isRootName className = false ∧ superclassOf P.M className = some s := by
  unfold nextClass at h
  by_cases h1 : className = []
  · simp [h1] at h
  · by_cases h2 : isRootName className = true
    · simp [h1, h2] at h
    · simp only [h1, h2, if_false] at h
      exact ⟨h1, Bool.eq_false_iff.2 h2, h⟩

theorem ancestorAt_add (M : Module) (a b : Nat) :
    ∀ className : Str,
      ancestorAt M (a + b) className = (ancestorAt M a className).bind (ancestorAt M b) := by
  induction a with
  | zero => intro className; simp [ancestorAt]
  | succ a ih =>
    intro className
    have he : a + 1 + b = (a + b) + 1 := by omega
    rw [he, ancestorAt, ancestorAt]
    cases superclassOf M className with
    | none => rfl
    | some s => exact ih s

/-- The nested calls follow the recorded superclass relation. -/
theorem ancestorAt_of_nthCall (P : GNUNonfragileIvarPass) (n : Nat) :
    ∀ (className d : Str), nthCall P n className = some d →
      ancestorAt P.M n className = some d := by
  induction n with
  | zero => intro className d h; exact h
  | succ n ih =>
    intro className d h
    rw [nthCall] at h
    cases hn : nextClass P className with
    | none => simp [hn] at h
    | some s =>
      simp only [hn] at h
      rw [ancestorAt, (nextClass_some P className s hn).2.2]
      exact ih s d h

/-- What `callNames` lists, when the recursion gets `n` calls deep. -/
theorem callNames_mem (P : GNUNonfragileIvarPass) (n : Nat) :
    ∀ (className d : Str), nthCall P n className = some d →
      (callNames P n className).length = n ∧
      ∀ e ∈ callNames P n className,
        (∃ s, nextClass P e = some s) ∧ ∃ i, ancestorAt P.M i className = some e := by
  induction n with
  | zero => intro className d _; simp [callNames]
  | succ n ih =>
    intro className d h
    rw [nthCall] at h
    cases hn : nextClass P className with
    | none => simp [hn] at h
    | some s =>
      simp only [hn] at h
      obtain ⟨hlen, hmem⟩ := ih s d h
      have hsup := (nextClass_some P className s hn).2.2
      rw [callNames]
      simp only [hn]
      refine ⟨by simp [hlen], ?_⟩
      intro e he
      rw [List.mem_cons] at he
      rcases he with rfl | he
      · exact ⟨⟨s, hn⟩, 0, rfl⟩
      · obtain ⟨h1, i, hi⟩ := hmem e he
        refine ⟨h1, i + 1, ?_⟩
        rw [ancestorAt, hsup]
        exact hi

theorem callNames_nodup (P : GNUNonfragileIvarPass) (hacyclic : P.M.Acyclic) (n : Nat) :
    ∀ (className d : Str), nthCall P n className = some d →
      (callNames P n className).Nodup := by
  induction n with
  | zero => intro className d _; simp [callNames]
  | succ n ih =>
    intro className d h
    rw [nthCall] at h
    cases hn : nextClass P className with
    | none => simp [hn] at h
    | some s =>
      simp only [hn] at h
      have hsup := (nextClass_some P className s hn).2.2
      rw [callNames]
      simp only [hn]
      rw [List.nodup_cons]
      refine ⟨?_, ih s d h⟩
      intro hmem
      obtain ⟨_, i, hi⟩ := (callNames_mem P n s d h).2 className hmem
      apply hacyclic className i
      rw [ancestorAt, hsup]
      exact hi

/-- In a module with acyclic superclass relation the recursion is at most
as deep as the module has globals. -/
theorem nthCall_depth_le (P : GNUNonfragileIvarPass) (hacyclic : P.M.Acyclic) (n : Nat)
    (className d : Str) (h : nthCall P n className = some d) :
    n ≤ P.M.globals.length := by
  obtain ⟨hlen, hmem⟩ := callNames_mem P n className d h
  have hnd := callNames_nodup P hacyclic n className d h
  have hnd2 : ((callNames P n className).map (fun t => classPrefix ++ t)).Nodup :=
    List.Nodup.map (List.append_right_injective classPrefix) hnd
  have hsub : (callNames P n className).map (fun t => classPrefix ++ t)
      ⊆ P.M.globals.map GlobalVariable.name := by
    intro x hx
    obtain ⟨e, he, rfl⟩ := List.mem_map.1 hx
    obtain ⟨⟨s, hs⟩, _⟩ := hmem e he
    obtain ⟨g, c, hg, _, _⟩ := superclassOf_some P.M e s (nextClass_some P e s hs).2.2
    exact List.mem_map.2 ⟨g, getGlobalVariable_mem P.M _ false g hg,
      getGlobalVariable_name P.M _ false g hg⟩
  have := (List.subperm_of_subset hnd2 hsub).length_le
  simpa [hlen] using this

theorem nthCall_none (P : GNUNonfragileIvarPass) (N : Nat) :
    ∀ className : Str, nthCall P N className = none →
      ∃ n d, n < N ∧ nthCall P n className = some d ∧ nextClass P d = none := by
  induction N with
  | zero => intro className h; simp [nthCall] at h
  | succ N ih =>
    intro className h
    rw [nthCall] at h
    cases hn : nextClass P className with
    | none => exact ⟨0, className, by omega, rfl, hn⟩
    | some s =>
      simp only [hn] at h
      obtain ⟨n, d, h1, h2, h3⟩ := ih s h
      refine ⟨n + 1, d, by omega, ?_, h3⟩
      rw [nthCall]
      simp only [hn]
      exact h2

theorem wellShaped_lookup (M : Module) (hshape : M.WellShaped) (className : Str)
    (g : GlobalVariable)
    (hg : M.getGlobalVariable (classPrefix ++ className) false = some g) :
    ∃ c, g.initializer = Constant.classStruct c := by
  have hmem := getGlobalVariable_mem M _ false g hg
  have hname := getGlobalVariable_name M _ false g hg
  have hp : classPrefix.isPrefixOf g.name = true := by
    rw [hname]; simp
  have := hshape g hmem hp
  cases hi : g.initializer with
  | data => exact absurd hi this
  | classStruct c => exact ⟨c, rfl⟩

/-- Where the recursion ends. -/
theorem nextClass_none (P : GNUNonfragileIvarPass) (hshape : P.M.WellShaped) (d : Str)
    (h : nextClass P d = none) :
    d = [] ∨ isRootName d = true ∨
      P.M.getGlobalVariable (classPrefix ++ d) false = none := by
  unfold nextClass at h
  by_cases h1 : d = []
  · exact Or.inl h1
  · by_cases h2 : isRootName d = true
    · exact Or.inr (Or.inl h2)
    · simp only [h1, h2, if_false] at h
      right; right
      unfold superclassOf at h
      cases hg : P.M.getGlobalVariable (classPrefix ++ d) false with
      | none => rfl
      | some g =>
        obtain ⟨c, hc⟩ := wellShaped_lookup P.M hshape d g hg
        simp [hg, hc] at h

/-- With one nested call more than the recursion is deep, `sizeOfClass`
returns; with fewer it does not. -/
theorem sizeOfClass_of_depth (w : Nat) (P : GNUNonfragileIvarPass)
    (hshape : P.M.WellShaped) (n : Nat) :
    ∀ (className d : Str), nthCall P n className = some d → nextClass P d = none →
      (∃ k, sizeOfClass w P (n + 1) className = some k) ∧
      sizeOfClass w P n className = none := by
  induction n with
  | zero =>
    intro className d h hd
    simp only [nthCall, Option.some.injEq] at h
    subst h
    refine ⟨?_, rfl⟩
    rw [sizeOfClass]
    rcases nextClass_none P hshape className hd with h1 | h2 | h3
    · exact ⟨0, by simp [h1]⟩
    · by_cases h1 : className = []
      · exact ⟨0, by simp [h1]⟩
      · exact ⟨P.PointerSize, by simp [h1, h2]⟩
    · by_cases h1 : className = []
      · exact ⟨0, by simp [h1]⟩
      · by_cases h2 : isRootName className = true
        · exact ⟨P.PointerSize, by simp [h1, h2]⟩
        · exact ⟨0, by simp [h1, h2, h3]⟩
  | succ n ih =>
    intro className d h hd
    rw [nthCall] at h
    cases hn : nextClass P className with
    | none => simp [hn] at h
    | some s =>
      simp only [hn] at h
      obtain ⟨h1, h2, h3⟩ := nextClass_some P className s hn
      obtain ⟨g, c, hg, hc, hs⟩ := superclassOf_some P.M className s h3
      obtain ⟨⟨k, hk⟩, hnone⟩ := ih s d h hd
      constructor
      · refine ⟨toSizeT w ((k : Int) - c.size), ?_⟩
        rw [sizeOfClass]
        simp [h1, h2, hg, hc, hs, hk]
      · rw [sizeOfClass]
        simp [h1, h2, hg, hc, hs, hnone]

/-- When the superclass relation recorded in the class metadata of
the module is acyclic (and the class metadata globals hold class
structures), the recursion of `sizeOfClass` ends for every class name:
there is a depth `n`, at most the number of globals, such that the `n`-th
nested call is for the `n`-th ancestor `d` of the class, which is empty,
begins with a root class name or is without metadata, `sizeOfClass` returns with these
`n` recursive calls (recursion bound `n + 1`), and does not return with
fewer. -/
theorem sizeOfClass_recursion_ends (w : Nat) (P : GNUNonfragileIvarPass)
    (hacyclic : P.M.Acyclic) (hshape : P.M.WellShaped) (className : Str) :
    ∃ (n : Nat) (d : Str) (k : Nat),
      n ≤ P.M.globals.length ∧
      nthCall P n className = some d ∧
      ancestorAt P.M n className = some d ∧
      (d = [] ∨ isRootName d = true ∨
        P.M.getGlobalVariable (classPrefix ++ d) false = none) ∧
      sizeOfClass w P (n + 1) className = some k ∧
      sizeOfClass w P n className = none := by
  have hend : nthCall P (P.M.globals.length + 1) className = none := by
    cases h : nthCall P (P.M.globals.length + 1) className with
    | none => rfl
    | some d =>
      have := nthCall_depth_le P hacyclic _ className d h
      omega
  obtain ⟨n, d, hn, hcall, hd⟩ := nthCall_none P _ className hend
  obtain ⟨⟨k, hk⟩, hnone⟩ := sizeOfClass_of_depth w P hshape n className d hcall hd
  exact ⟨n, d, k, by omega, hcall, ancestorAt_of_nthCall P n className d hcall,
    nextClass_none P hshape d hd, hk, hnone⟩

theorem ancestorAt_none_of_le (M : Module) (a b : Nat) (hle : a ≤ b) (className : Str)
    (h : ancestorAt M a className = none) : ancestorAt M b className = none := by
  obtain ⟨c, rfl⟩ : ∃ c, b = a + c := ⟨b - a, by omega⟩
  rw [ancestorAt_add, h]
  rfl

/-- A module in which every recorded superclass name ends the relation
within `N` steps is acyclic. -/
theorem acyclic_of_supersEndWithin (M : Module) (N : Nat)
    (h : supersEndWithin M N = true) : M.Acyclic := by
  have hall : ∀ className : Str, ancestorAt M (N + 1) className = none := by
    intro className
    rw [ancestorAt]
    cases hs : superclassOf M className with
    | none => rfl
    | some s =>
      obtain ⟨g, c, hg, hc, hsn⟩ := superclassOf_some M className s hs
      have hmem := getGlobalVariable_mem M _ false g hg
      unfold supersEndWithin at h
      have := (List.all_eq_true.1 h) g hmem
      simp only [hc] at this
      rw [← hsn]
      simpa using this
  intro className n hcyc
  have hrep : ∀ k : Nat, ancestorAt M (k * (n + 1)) className = some className := by
    intro k
    induction k with
    | zero => simp [ancestorAt]
    | succ k ih =>
      have he : (k + 1) * (n + 1) = (n + 1) + k * (n + 1) := by ring
      rw [he, ancestorAt_add, hcyc]
      exact ih
  have h1 := hrep (N + 1)
  have h2 := ancestorAt_none_of_le M (N + 1) ((N + 1) * (n + 1))
    (Nat.le_mul_of_pos_right _ (by omega)) className (hall className)
  rw [h1] at h2
  simp at h2

/-- On the example module and the class `Leaf`. -/
theorem sizeOfClass_recursion_ends_example :
    ∃ (n : Nat) (d : Str) (k : Nat),
      n ≤ examplePass.M.globals.length ∧
      nthCall examplePass n "Leaf".toList = some d ∧
      ancestorAt examplePass.M n "Leaf".toList = some d ∧
      (d = [] ∨ isRootName d = true ∨
        examplePass.M.getGlobalVariable (classPrefix ++ d) false = none) ∧
      sizeOfClass 64 examplePass (n + 1) "Leaf".toList = some k ∧
      sizeOfClass 64 examplePass n "Leaf".toList = none :=
  sizeOfClass_recursion_ends 64 examplePass
    (acyclic_of_supersEndWithin examplePass.M 4 (by decide)) (by decide) "Leaf".toList

/-! ## Sites after a `break`, names that begin with a root name, and field
names that begin with the queried name -/

/-- C5, the failing input: in the only block of `breakResolvedFunction` a
double load of `other_global` precedes a candidate site for `Mid.count`
(outer load `%4`, inner load `%3`), for which `hardCodedOffset` returns the
resolved offset 8. `runOnFunction` returns false and leaves the function
as it was, for every recursion bound: the use `%5` still reads the outer
load, and both loads are still in the function. -/
theorem C5_break_leaves_resolved_site :
    breaksScan breakResolvedFunction (loadInst 2 1) = true ∧
    isCandidate breakResolvedFunction (loadInst 4 3) = true ∧
    matchLoads breakResolvedFunction (loadInst 4 3)
      = some (4, 3, Ty.integer 32, "__objc_ivar_offset_Mid.count".toList) ∧
    decodeName "__objc_ivar_offset_Mid.count".toList = ("Mid".toList, "count".toList) ∧
    (∀ fuel, hardCodedOffset 64 examplePass (fuel + 3) "Mid".toList "count".toList = some 8) ∧
    (∀ fuel, runOnFunction 64 acceptAll examplePass fuel breakResolvedFunction
      = some (false, breakResolvedFunction)) ∧
    loadInst 4 3 ∈ breakResolvedFunction.linked ∧
    loadGlobal 3 "__objc_ivar_offset_Mid.count" ∈ breakResolvedFunction.linked ∧
    useInst 5 4 ∈ breakResolvedFunction.linked :=
  ⟨by decide, by decide, by decide, by decide,
   fun fuel => hardCodedOffset_mono 64 examplePass 3 (fuel + 3) _ _ 8 (by omega) (by decide),
   fun fuel => runOnFunction_mono 64 acceptAll examplePass 0 fuel (by omega) _ _ (by decide),
   by decide, by decide, by decide⟩

/-- C8, the failing input: in the only block of `breakFallbackFunction` a
double load of `other_global` precedes a candidate site for `Ext.v` (outer
load `%4`, inner load `%3`). `hardCodedOffset` fails for `Ext.v` and the
module has the global named with the direct offset prefix and the suffix
`Ext.v`, of external linkage. `runOnFunction` reports the function as not
modified and leaves it as it was, for every recursion bound: the inner
load still reads the offset variable. -/
theorem C8_break_leaves_fallback_site :
    breaksScan breakFallbackFunction (loadInst 2 1) = true ∧
    isCandidate breakFallbackFunction (loadInst 4 3) = true ∧
    matchLoads breakFallbackFunction (loadInst 4 3)
      = some (4, 3, Ty.integer 32, "__objc_ivar_offset_Ext.v".toList) ∧
    decodeName "__objc_ivar_offset_Ext.v".toList = ("Ext".toList, "v".toList) ∧
    (∀ fuel, hardCodedOffset 64 examplePass fuel "Ext".toList "v".toList = some 0) ∧
    valuePrefix ++ "__objc_ivar_offset_Ext.v".toList.drop prefixLength
      = "__objc_ivar_offset_value_Ext.v".toList ∧
    examplePass.M.getGlobalVariable "__objc_ivar_offset_value_Ext.v".toList false
      = some (dataGlobal "__objc_ivar_offset_value_Ext.v") ∧
    (∀ fuel, runOnFunction 64 acceptAll examplePass fuel breakFallbackFunction
      = some (false, breakFallbackFunction)) ∧
    loadInst 4 3 ∈ breakFallbackFunction.linked ∧
    loadGlobal 3 "__objc_ivar_offset_Ext.v" ∈ breakFallbackFunction.linked :=
  ⟨by decide, by decide, by decide, by decide,
   fun fuel => hardCodedOffset_mono 64 examplePass 0 fuel _ _ 0 (by omega) (by decide),
   by decide, by decide,
   fun fuel => runOnFunction_mono 64 acceptAll examplePass 0 fuel (by omega) _ _ (by decide),
   by decide, by decide⟩

/-- C15, the failing input: in `controllerModule` the class `MyCtl` has
metadata, its direct superclass is named `NSObjectController`, which is
neither `NSObject` nor `Object` and has no metadata in the module, and no
direct offset global exists for `MyCtl.x`. `hardCodedOffset` returns 24
for `MyCtl.x`, not 0, because the name of the superclass begins with
`NSObject`; `runOnFunction` on `controllerFunction` returns true, removes
the inner load `%1` and the outer load `%2` of the site, and makes the use
`%3` read the constant 24. -/
theorem C15_root_prefix_superclass_resolves :
    (∃ (Cls : GlobalVariable) (c : ClsStruct),
      (doInitialization controllerModule).M.getGlobalVariable
        (classPrefix ++ "MyCtl".toList) true = some Cls ∧
      Cls.initializer = Constant.classStruct c ∧
      c.super = some "NSObjectController".toList) ∧
    "NSObjectController".toList ≠ ([] : Str) ∧
    "NSObjectController".toList ≠ "NSObject".toList ∧
    "NSObjectController".toList ≠ "Object".toList ∧
    (doInitialization controllerModule).M.getGlobalVariable
      (classPrefix ++ "NSObjectController".toList) true = none ∧
    (∀ fuel, sizeOfClass 64 (doInitialization controllerModule) (fuel + 1)
      "NSObjectController".toList = some 8) ∧
    (∀ fuel, hardCodedOffset 64 (doInitialization controllerModule) (fuel + 1)
      "MyCtl".toList "x".toList = some 24) ∧
    (doInitialization controllerModule).M.getGlobalVariable
      (valuePrefix ++ "MyCtl.x".toList) true = none ∧
    isCandidate controllerFunction (loadInst 2 1) = true ∧
    decodeName "__objc_ivar_offset_MyCtl.x".toList = ("MyCtl".toList, "x".toList) ∧
    (∀ fuel, runOnFunction 64 acceptAll (doInitialization controllerModule) (fuel + 1)
      controllerFunction = some (true, controllerFunctionAfter)) ∧
    loadInst 2 1 ∉ controllerFunctionAfter.linked ∧
    loadGlobal 1 "__objc_ivar_offset_MyCtl.x" ∉ controllerFunctionAfter.linked ∧
    Instruction.other 3 Ty.other [Value.constInt 32 24, Value.other 0]
      ∈ controllerFunctionAfter.linked :=
  ⟨⟨classGlobal "MyCtl" (some "NSObjectController") (-24) [("x", 16)], _, by decide, rfl,
      by decide⟩,
   by decide, by decide, by decide, by decide,
   fun fuel => sizeOfClass_mono 64 _ 1 (fuel + 1) _ 8 (by omega) (by decide),
   fun fuel => hardCodedOffset_mono 64 _ 1 (fuel + 1) _ _ 24 (by omega) (by decide),
   by decide, by decide, by decide,
   fun fuel => runOnFunction_mono 64 acceptAll _ 1 (fuel + 1) (by omega) _ _ (by decide),
   by decide, by decide, by decide⟩

/-- C16, the failing input: the superclass relation recorded in
`storeModule` is acyclic (`Item`, `ObjectStore`, `Base`, no superclass).
The recursion of `sizeOfClass` for `Item` terminates after one recursive
call, and it ends at `ObjectStore`: a name that is not empty, is neither
of the root class names `NSObject` and `Object`, and has metadata in the
module, with the recorded superclass `Base`. `sizeOfClass` makes no call
for `Base`, the second ancestor of `Item`, because the name `ObjectStore`
begins with `Object`. -/
theorem C16_recursion_ends_at_class_with_metadata :
    storeModule.Acyclic ∧ storeModule.WellShaped ∧
    nthCall (doInitialization storeModule) 1 "Item".toList = some "ObjectStore".toList ∧
    nextClass (doInitialization storeModule) "ObjectStore".toList = none ∧
    nthCall (doInitialization storeModule) 2 "Item".toList = none ∧
    "ObjectStore".toList ≠ ([] : Str) ∧
    "ObjectStore".toList ≠ "NSObject".toList ∧
    "ObjectStore".toList ≠ "Object".toList ∧
    (∃ (Cls : GlobalVariable) (c : ClsStruct),
      (doInitialization storeModule).M.getGlobalVariable
        (classPrefix ++ "ObjectStore".toList) false = some Cls ∧
      Cls.initializer = Constant.classStruct c ∧
      getSuperName c = "Base".toList) ∧
    ancestorAt storeModule 2 "Item".toList = some "Base".toList ∧
    sizeOfClass 64 (doInitialization storeModule) 1 "Item".toList = none ∧
    (∀ fuel, sizeOfClass 64 (doInitialization storeModule) (fuel + 2) "Item".toList
      = some 16) :=
  ⟨acyclic_of_supersEndWithin storeModule 3 (by decide), by decide, by decide, by decide,
   by decide, by decide, by decide, by decide,
   ⟨classGlobal "ObjectStore" (some "Base") (-24) [("slots", 0)], _, by decide, rfl,
     by decide⟩,
   by decide, by decide,
   fun fuel => sizeOfClass_mono 64 _ 2 (fuel + 2) _ 16 (by omega) (by decide)⟩

/-- C19, the failing input: in `pairModule` the class `Pair : NSObject` has
the field list `value2` at local offset 16, then `value` at local offset
8, and `sizeOfClass` of its superclass is 8. The first entry whose name is
`value` is the second one, so the claimed value of
`hardCodedOffset(Pair, value)` is 8 + 8 = 16; the call returns the
non-zero value 24 = 8 + 16, with the local offset of the entry `value2`,
whose name begins with `value`. -/
theorem C19_prefix_entry_taken_for_match :
    (∃ (Cls : GlobalVariable) (c : ClsStruct),
      (doInitialization pairModule).M.getGlobalVariable
        (classPrefix ++ "Pair".toList) true = some Cls ∧
      Cls.initializer = Constant.classStruct c ∧
      getSuperName c = "NSObject".toList ∧
      c.ivarList.count = 2 ∧
      c.ivarList.ivars = [⟨"value2".toList, 16⟩, ⟨"value".toList, 8⟩]) ∧
    "value2".toList ≠ "value".toList ∧
    (∀ fuel, sizeOfClass 64 (doInitialization pairModule) (fuel + 1) "NSObject".toList
      = some 8) ∧
    toSizeT 64 ((8 : Int) + 8) = 16 ∧
    (∀ fuel, hardCodedOffset 64 (doInitialization pairModule) (fuel + 1) "Pair".toList
      "value".toList = some 24) ∧
    (∀ fuel, hardCodedOffset 64 (doInitialization pairModule) fuel "Pair".toList
      "value".toList ≠ some 16) := by
  have h : ∀ fuel, hardCodedOffset 64 (doInitialization pairModule) (fuel + 1) "Pair".toList
      "value".toList = some 24 := fun fuel =>
    hardCodedOffset_mono 64 _ 1 (fuel + 1) _ _ 24 (by omega) (by decide)
  refine ⟨⟨classGlobal "Pair" (some "NSObject") (-24) [("value2", 16), ("value", 8)], _,
      by decide, rfl, by decide, by decide, by decide⟩,
    by decide,
    fun fuel => sizeOfClass_mono 64 _ 1 (fuel + 1) _ 8 (by omega) (by decide),
    by decide, h, ?_⟩
  intro fuel
  cases fuel with
  | zero => decide
  | succ n => rw [h n]; decide

end IvarPass
